import Mathlib

/-!
Shallow embedding of the cache + stream-buffer prefetcher simulator in
`src/cache.cc` (class `Cache`: constructor, `access`, `find_victim`,
`update_lru`, `check_prefetch`, `fill_prefetch`, and `printStats`).

Machine integers (`uint32_t`) are modelled as `Nat` with an explicit
`% 2^32` wherever the C++ arithmetic can wrap.  Calls into the lower-level
cache (`lower_level->access(...)`) are modelled as an output trace: the
upper level never reads any state back from the lower level (the return
value of `access` is ignored by the caller), so `Cache.access` returns,
besides the hit flag and the new cache state, the ordered list of
`(address, op)` calls issued to the lower level.  The `lower_level`
pointer itself is modelled by the boolean `hasLower` (the code only tests
it for null).
-/

/-- `2^32`: modulus of the C++ `uint32_t` arithmetic. -/
def M32 : Nat := 4294967296

/-- Memory operation: the `char rw` argument (`'r'` / `'w'`). -/
inductive Op where
  | R : Op
  | W : Op
deriving DecidableEq, Repr, BEq

/-- One cache line slot (`struct Way` used by `cache.cc`). -/
structure Way where
  valid : Bool
  dirty : Bool
  tag : Nat
  lru_counter : Nat
deriving DecidableEq, Repr

/-- Default `Way`, used for out-of-range vector reads (never hit in
well-formed states; the C++ never indexes out of range). -/
def wayDefault : Way := ⟨false, false, 0, 0⟩

/-- One stream buffer (`struct StreamBuffer`). -/
structure StreamBuffer where
  valid : Bool
  head : Nat
  blocks : List Nat
deriving DecidableEq, Repr

/-- Default `StreamBuffer` for out-of-range reads. -/
def sbDefault : StreamBuffer := ⟨false, 0, []⟩

/-- The `Cache` class: geometry, tag array, stream-buffer list
(front = MRU), statistics counters.  `hasLower` models the
`lower_level` pointer being non-null. -/
structure Cache where
  blocksize : Nat
  size : Nat
  assoc : Nat
  pref_n : Nat
  pref_m : Nat
  hasLower : Bool
  num_sets : Nat
  num_index_bits : Nat
  num_offset_bits : Nat
  num_tag_bits : Nat
  sets : List (List Way)
  stream_buffers : List StreamBuffer
  reads : Nat
  writes : Nat
  read_misses : Nat
  write_misses : Nat
  write_backs : Nat
  prefetches : Nat
  nextLevelDemands : Nat
deriving DecidableEq, Repr

/-- Fuel-driven floor base-2 logarithm (structurally recursive, so that
concrete cache configurations evaluate inside the kernel). -/
def ilog2Aux : Nat → Nat → Nat
  | 0, _ => 0
  | fuel + 1, n => if n ≥ 2 then ilog2Aux fuel (n / 2) + 1 else 0

/-- Floor base-2 logarithm; agrees with `Nat.log2` (and with the
`(uint32_t)std::log2(x)` the constructor computes on the powers of two
the simulator is configured with). -/
def ilog2 (n : Nat) : Nat := ilog2Aux n n

theorem ilog2Aux_eq (fuel n : Nat) (h : n ≤ fuel) : ilog2Aux fuel n = Nat.log2 n := by
  induction fuel generalizing n with
  | zero =>
    have : n = 0 := by omega
    subst this
    rw [Nat.log2]
    rfl
  | succ fuel ih =>
    rw [ilog2Aux, Nat.log2]
    split
    · rw [ih (n / 2) (by omega)]
    · rfl

theorem ilog2_eq_log2 (n : Nat) : ilog2 n = Nat.log2 n :=
  ilog2Aux_eq n n (Nat.le_refl n)

/-- The parameterized constructor `Cache::Cache(blocksize, size, assoc,
pref_n, pref_m, lower_level)`.  `std::log2` on the powers of two the
simulator is configured with coincides with `Nat.log2`. -/
def mkCache (blocksize size assoc pref_n pref_m : Nat) (hasLower : Bool) : Cache :=
  let num_sets := size / (blocksize * assoc)
  let nib := ilog2 num_sets
  let nob := ilog2 blocksize
  { blocksize := blocksize
    size := size
    assoc := assoc
    pref_n := pref_n
    pref_m := pref_m
    hasLower := hasLower
    num_sets := num_sets
    num_index_bits := nib
    num_offset_bits := nob
    num_tag_bits := 32 - (nib + nob)
    sets := List.replicate num_sets ((List.range assoc).map fun j => ⟨false, false, 0, j⟩)
    stream_buffers := List.replicate pref_n ⟨false, 0, List.replicate pref_m 0⟩
    reads := 0
    writes := 0
    read_misses := 0
    write_misses := 0
    write_backs := 0
    prefetches := 0
    nextLevelDemands := 0 }

/-- Address decomposition: tag bits of `access` (`address >> (32 - num_tag_bits)`). -/
def tagOf (c : Cache) (address : Nat) : Nat :=
  address >>> (32 - c.num_tag_bits)

/-- Address decomposition: index bits of `access`
(`(address >> num_offset_bits) & ((1 << num_index_bits) - 1)`). -/
def indexOf (c : Cache) (address : Nat) : Nat :=
  (address >>> c.num_offset_bits) % (2 ^ c.num_index_bits)

/-- Block address (`address >> num_offset_bits`). -/
def blockOf (c : Cache) (address : Nat) : Nat :=
  address >>> c.num_offset_bits

/-- The scan inside `Cache::check_prefetch` over one buffer:
first `i < pref_m` with `blocks[i] == block_addr`. -/
def scanBlocks (pref_m : Nat) (blocks : List Nat) (block_addr : Nat) : Option Nat :=
  (List.range pref_m).find? fun i => blocks.getD i 0 == block_addr

/-- `Cache::check_prefetch` on the buffer list: walk buffers front (MRU)
to back; on the first valid buffer containing `block_addr` at slot `i`,
set that buffer's `head = (i+1) % pref_m` and return its position.
Returns the (optional) position and the updated buffer list. -/
def checkPrefetchList (pref_m block_addr : Nat) :
    List StreamBuffer → Option Nat × List StreamBuffer
  | [] => (none, [])
  | b :: rest =>
    match (if b.valid then scanBlocks pref_m b.blocks block_addr else none) with
    | some i => (some 0, { b with head := (i + 1) % pref_m } :: rest)
    | none =>
      let r := checkPrefetchList pref_m block_addr rest
      (r.1.map (· + 1), b :: r.2)

/-- The prefetch probe done at the top of `Cache::access`
(guarded by `pref_n > 0`; counters do not influence it). -/
def probeOf (c : Cache) (address : Nat) : Option Nat × List StreamBuffer :=
  if c.pref_n > 0 then
    checkPrefetchList c.pref_m (blockOf c address) c.stream_buffers
  else (none, c.stream_buffers)

/-- The tag-match loop of `Cache::access`: first way `i < assoc` of the
set with `valid && tag == tag_bits`. -/
def lookupWay (assoc : Nat) (ways : List Way) (tag_bits : Nat) : Option Nat :=
  (List.range assoc).find? fun i =>
    (ways.getD i wayDefault).valid && (ways.getD i wayDefault).tag == tag_bits

/-- `Cache::find_victim`: index of the way with the largest
`lru_counter` (first maximum wins, starting from way 0). -/
def find_victim_list (assoc : Nat) (ways : List Way) : Nat :=
  ((List.range assoc).foldl
    (fun st i =>
      if (ways.getD i wayDefault).lru_counter > st.2 then
        (i, (ways.getD i wayDefault).lru_counter)
      else st)
    (0, (ways.getD 0 wayDefault).lru_counter)).1

/-- `Cache::update_lru`: set the accessed way's counter to 0 and
increment every counter that was strictly below its old value. -/
def update_lru_list (assoc : Nat) (ways : List Way) (way_id : Nat) : List Way :=
  let oldCounter := (ways.getD way_id wayDefault).lru_counter
  (List.range assoc).map fun i =>
    let w := ways.getD i wayDefault
    if i = way_id then { w with lru_counter := 0 }
    else if w.lru_counter < oldCounter then { w with lru_counter := w.lru_counter + 1 }
    else w

/-- Blocks written by the NEW_STREAM branch of `fill_prefetch`:
`blocks[i] = block_addr + 1 + i` for `i < pref_m`. -/
def newStreamBlocks (m block_addr : Nat) : List Nat :=
  (List.range m).map fun i => (block_addr + 1 + i) % M32

/-- Lower-level reads issued by the NEW_STREAM branch, in ascending
block order: `(block_addr + 1 + i) << num_offset_bits`. -/
def newStreamTrace (m block_addr off : Nat) : List (Nat × Op) :=
  (List.range m).map fun i => ((((block_addr + 1 + i) % M32) <<< off) % M32, Op.R)

/-- One iteration of the CONTINUE loop of `fill_prefetch`: slot
`(head + i) % pref_m` is compared with `block_addr + 1 + i` and, when
stale, overwritten (counting one prefetch and one lower-level read).
State: (blocks, prefetch increments, lower-level reads so far). -/
def continueStep (m block_addr head off : Nat)
    (st : List Nat × Nat × List (Nat × Op)) (i : Nat) :
    List Nat × Nat × List (Nat × Op) :=
  let pos := (head + i) % m
  let expected := (block_addr + 1 + i) % M32
  if st.1.getD pos 0 == expected then st
  else (st.1.set pos expected, st.2.1 + 1,
        st.2.2 ++ [((expected <<< off) % M32, Op.R)])

/-- The CONTINUE loop of `fill_prefetch`, over `i ∈ [0, pref_m)`. -/
def continueFold (m block_addr head off : Nat) (blocks : List Nat) :
    List Nat × Nat × List (Nat × Op) :=
  (List.range m).foldl (continueStep m block_addr head off) (blocks, 0, [])

/-- The body of `Cache::fill_prefetch` on the stream-buffer pool:
given `pref_m`, `num_offset_bits` and the demanded block address, rebuild
the target buffer (NEW_STREAM or CONTINUE) and splice it to the front
(MRU).  Returns the new pool, the number of prefetches counted, and the
reads the C++ issues to the lower level (used only when a lower level
exists; the C++ guards each `lower_level->access` with `if (lower_level)`). -/
def fillCore (pref_m off block_addr : Nat) (bufs : List StreamBuffer)
    (buffer_index : Nat) (is_new_stream : Bool) :
    List StreamBuffer × Nat × List (Nat × Op) :=
  let b := bufs.getD buffer_index sbDefault
  let rest := bufs.take buffer_index ++ bufs.drop (buffer_index + 1)
  if is_new_stream then
    -- Scenario 1: new stream: blocks[i] = block_addr + 1 + i, head = 0,
    -- one prefetch (and one lower-level read) per slot, ascending.
    (⟨true, 0, newStreamBlocks pref_m block_addr⟩ :: rest, pref_m,
     newStreamTrace pref_m block_addr off)
  else
    -- Scenarios 2 and 4: continue the stream from the current head;
    -- only slots that differ from the expected block are rewritten.
    let st := continueFold pref_m block_addr b.head off b.blocks
    (⟨true, b.head, st.1⟩ :: rest, st.2.1, st.2.2)

/-- `Cache::access(address, rw)`.  Returns (hit?, new cache state, trace
of lower-level calls in issue order: writeback, then demand read, then
prefetch reads).  Mirrors `cache.cc` lines 88-171: count the access,
probe the stream buffers (mutating the hit buffer\'s head), look the tag
up, then follow the four hit/miss x prefetch-hit/miss scenarios.  Each
branch assembles the final state as one record update of `c`; the
geometry fields (`pref_n`, `hasLower`, ...) the C++ reads through `this`
are immutable, so they are read from `c` directly. -/
def Cache.access (c : Cache) (address : Nat) (rw : Op) : Bool × Cache × List (Nat × Op) :=
  let tag_bits := tagOf c address
  let index_bits := indexOf c address
  let pr := probeOf c address
  let ways := c.sets.getD index_bits []
  let readInc := if rw = Op.R then 1 else 0
  let writeInc := if rw = Op.W then 1 else 0
  match lookupWay c.assoc ways tag_bits with
  | some i =>
    -- Cache hit: mark dirty on write, promote, keep a hitting stream in sync.
    let ways1 := if rw = Op.W then ways.set i { ways.getD i wayDefault with dirty := true }
                 else ways
    let ways2 := update_lru_list c.assoc ways1 i
    match pr.1 with
    | some pi =>
      -- Scenario 4: hit + prefetch hit: CONTINUE-refill the hit buffer.
      let f := fillCore c.pref_m c.num_offset_bits (blockOf c address) pr.2 pi false
      (true,
       { c with reads := c.reads + readInc, writes := c.writes + writeInc,
                sets := c.sets.set index_bits ways2,
                stream_buffers := f.1, prefetches := c.prefetches + f.2.1 },
       if c.hasLower then f.2.2 else [])
    | none =>
      -- Scenario 3: hit + prefetch miss: no stream-buffer activity.
      (true,
       { c with reads := c.reads + readInc, writes := c.writes + writeInc,
                sets := c.sets.set index_bits ways2,
                stream_buffers := pr.2 },
       [])
  | none =>
    -- Cache miss: select a victim, write it back if dirty, bring the
    -- block in (stream buffer or lower level), install, promote.
    let victim := find_victim_list c.assoc ways
    let v := ways.getD victim wayDefault
    let doWb := v.valid && v.dirty
    let victim_addr := ((v.tag <<< (c.num_index_bits + c.num_offset_bits)) % M32) |||
                       ((index_bits <<< c.num_offset_bits) % M32)
    let wbInc := if doWb then 1 else 0
    let trWb : List (Nat × Op) := if doWb && c.hasLower then [(victim_addr, Op.W)] else []
    let ways1 := if doWb then ways.set victim { v with dirty := false } else ways
    let ways2 := ways1.set victim
      ⟨true, rw == Op.W, tag_bits, (ways1.getD victim wayDefault).lru_counter⟩
    let ways3 := update_lru_list c.assoc ways2 victim
    match pr.1 with
    | some pi =>
      -- Scenario 2: miss + prefetch hit: no demand read, no miss counter;
      -- CONTINUE-refill the hit buffer.
      let f := fillCore c.pref_m c.num_offset_bits (blockOf c address) pr.2 pi false
      (false,
       { c with reads := c.reads + readInc, writes := c.writes + writeInc,
                write_backs := c.write_backs + wbInc,
                sets := c.sets.set index_bits ways3,
                stream_buffers := f.1, prefetches := c.prefetches + f.2.1 },
       trWb ++ (if c.hasLower then f.2.2 else []))
    | none =>
      -- Scenario 1: miss + prefetch miss: demand read (if a lower level
      -- exists), new stream in the back (LRU) buffer, miss counter.
      let trD : List (Nat × Op) := if c.hasLower then [(address, Op.R)] else []
      let f := if c.pref_n > 0 then
                 fillCore c.pref_m c.num_offset_bits (blockOf c address) pr.2
                   (pr.2.length - 1) true
               else (pr.2, 0, [])
      (false,
       { c with reads := c.reads + readInc, writes := c.writes + writeInc,
                read_misses := c.read_misses + readInc,
                write_misses := c.write_misses + writeInc,
                write_backs := c.write_backs + wbInc,
                nextLevelDemands := c.nextLevelDemands + (if c.hasLower then 1 else 0),
                sets := c.sets.set index_bits ways3,
                stream_buffers := f.1, prefetches := c.prefetches + f.2.1 },
       trWb ++ trD ++ (if c.hasLower then f.2.2 else []))

/-- Run a list of accesses through one cache (the driver's loop),
discarding the lower-level traces. -/
def runTrace (c : Cache) (tr : List (Nat × Op)) : Cache :=
  tr.foldl (fun st p => (st.access p.1 p.2).2.1) c

/-- Feed a trace of calls (as produced by an upper level) into a cache,
in order. -/
def applyTrace (c : Cache) (tr : List (Nat × Op)) : Cache :=
  tr.foldl (fun st p => (st.access p.1 p.2).2.1) c

/-- One access of a two-level hierarchy: L1 handles it and every call it
issues is executed synchronously, in order, by L2. -/
def accessPair (p : Cache × Cache) (address : Nat) (rw : Op) : Cache × Cache :=
  let r := p.1.access address rw
  (r.2.1, applyTrace p.2 r.2.2)

/-- Run a trace through a two-level hierarchy. -/
def runPair (p : Cache × Cache) (tr : List (Nat × Op)) : Cache × Cache :=
  tr.foldl (fun st q => accessPair st q.1 q.2) p

/-- Observer: did this access miss the tag array? -/
def missOn (c : Cache) (address : Nat) : Bool :=
  (lookupWay c.assoc (c.sets.getD (indexOf c address) []) (tagOf c address)).isNone

/-- Observer: did the prefetch probe of this access hit? -/
def probeHitOn (c : Cache) (address : Nat) : Bool :=
  (probeOf c address).1.isSome

/-- Observer: demand miss = cache miss with prefetch probe miss. -/
def demandMissOn (c : Cache) (address : Nat) : Bool :=
  missOn c address && !(probeHitOn c address)

/-- Observer: does this access evict a valid dirty victim? -/
def wbOn (c : Cache) (address : Nat) : Bool :=
  missOn c address &&
    (let ways := c.sets.getD (indexOf c address) []
     let v := ways.getD (find_victim_list c.assoc ways) wayDefault
     v.valid && v.dirty)

/-- Observer: did any access of the run hit the prefetch probe? -/
def runHadProbeHit (c : Cache) : List (Nat × Op) → Bool
  | [] => false
  | p :: rest => probeHitOn c p.1 || runHadProbeHit ((c.access p.1 p.2).2.1) rest

/-- The way stored at set `s`, way `i`. -/
def wayAt (c : Cache) (s i : Nat) : Way :=
  (c.sets.getD s []).getD i wayDefault

/-- Line e of `printStats`:
`max(0, (L1.read_misses + L1.write_misses) / (L1.reads + L1.writes))`,
as a rational (the float `0/0` is NaN and `std::max(0.0f, NaN)` returns
its first argument, matching `0/0 = 0` in `ℚ`). -/
def l1MissRate (L1 : Cache) : ℚ :=
  max 0 (((L1.read_misses : ℚ) + (L1.write_misses : ℚ)) /
         ((L1.reads : ℚ) + (L1.writes : ℚ)))

/-- Line n of `printStats`:
`max(0, L2.read_misses / L1.nextLevelDemands)`. -/
def l2MissRate (L1 L2 : Cache) : ℚ :=
  max 0 ((L2.read_misses : ℚ) / (L1.nextLevelDemands : ℚ))

/-- Per-buffer shape invariant: a valid buffer holds, starting at `head`
and wrapping, the consecutive run based at its head slot (all mod `2^32`). -/
def SBShape (m : Nat) (b : StreamBuffer) : Prop :=
  b.valid = true →
    ∀ i < m, b.blocks.getD ((b.head + i) % m) 0 = (b.blocks.getD (b.head % m) 0 + i) % M32

instance (m : Nat) (b : StreamBuffer) : Decidable (SBShape m b) := by
  unfold SBShape; infer_instance

/-- Well-formedness of one set: `assoc` ways, LRU counters a permutation
of `{0, …, assoc-1}`, tags within `num_tag_bits`. -/
def SetWF (assoc tb : Nat) (s : List Way) : Prop :=
  s.length = assoc ∧ (s.map Way.lru_counter).Perm (List.range assoc) ∧
    ∀ w ∈ s, w.tag < 2 ^ tb

instance (assoc tb : Nat) (s : List Way) : Decidable (SetWF assoc tb s) := by
  unfold SetWF; infer_instance

/-- Buffer-pool well-formedness: `pref_m`-sized block lists, valid
buffers in consecutive ascending shape. -/
def BufsWF (pm : Nat) (l : List StreamBuffer) : Prop :=
  ∀ b ∈ l, b.blocks.length = pm ∧ SBShape pm b

instance (pm : Nat) (l : List StreamBuffer) : Decidable (BufsWF pm l) := by
  unfold BufsWF; infer_instance

/-- Well-formedness of a cache state: geometry is consistent, the index
range fits the tag array, the tag array has `num_sets` well-formed sets,
and there are `pref_n` stream buffers of `pref_m` blocks each, every
valid one holding a consecutive ascending run. -/
def WF (c : Cache) : Prop :=
  c.num_index_bits + c.num_offset_bits ≤ 32 ∧
  c.num_tag_bits = 32 - (c.num_index_bits + c.num_offset_bits) ∧
  (c.num_sets = 0 ∨ 2 ^ c.num_index_bits ≤ c.num_sets) ∧
  c.sets.length = c.num_sets ∧
  (∀ s ∈ c.sets, SetWF c.assoc c.num_tag_bits s) ∧
  c.stream_buffers.length = c.pref_n ∧
  BufsWF c.pref_m c.stream_buffers

instance (c : Cache) : Decidable (WF c) := by
  unfold WF; infer_instance

/-! ### List helpers -/

/-- A duplicate-free list of `n` naturals below `n` is a permutation of
`range n`. -/
theorem perm_range_of_nodup_lt (l : List Nat) (n : Nat)
    (hlen : l.length = n) (hnodup : l.Nodup) (hlt : ∀ x ∈ l, x < n) :
    l.Perm (List.range n) := by
  apply List.perm_of_nodup_nodup_toFinset_eq hnodup (List.nodup_range n)
  apply Finset.eq_of_subset_of_card_le
  · intro x hx
    simp only [List.mem_toFinset] at hx ⊢
    exact List.mem_range.mpr (hlt x hx)
  · rw [List.toFinset_card_of_nodup hnodup,
      List.toFinset_card_of_nodup (List.nodup_range n), hlen, List.length_range]

/-- Setting a slot to its current value is the identity. -/
theorem list_set_self {α : Type} (l : List α) (i : Nat) (h : i < l.length) :
    l.set i l[i] = l := by
  apply List.ext_getElem (by simp)
  intro n h1 h2
  rw [List.getElem_set]
  split <;> simp_all

/-- `take` before the set position is unchanged. -/
theorem take_set_eq {α : Type} (l : List α) (i : Nat) (a : α) :
    (l.set i a).take i = l.take i := by
  apply List.ext_getElem (by simp)
  intro n h1 h2
  rw [List.getElem_take, List.getElem_take, List.getElem_set_ne]
  intro he
  simp [List.length_take] at h1
  omega

/-! ### `update_lru` lemmas -/

@[simp] theorem update_lru_length (n : Nat) (ways : List Way) (k : Nat) :
    (update_lru_list n ways k).length = n := by
  simp [update_lru_list]

/-- Pointwise description of `update_lru`: the accessed way gets counter
0; a way whose counter was below the accessed way's old counter is
incremented; the rest are untouched. -/
theorem update_lru_getD (n : Nat) (ways : List Way) (k i : Nat) (hi : i < n) :
    (update_lru_list n ways k).getD i wayDefault =
      (if i = k then { ways.getD i wayDefault with lru_counter := 0 }
       else if (ways.getD i wayDefault).lru_counter <
           (ways.getD k wayDefault).lru_counter then
         { ways.getD i wayDefault with
             lru_counter := (ways.getD i wayDefault).lru_counter + 1 }
       else ways.getD i wayDefault) := by
  have hlt : i < (update_lru_list n ways k).length := by simp [hi]
  rw [List.getD_eq_getElem _ _ hlt]
  unfold update_lru_list
  simp [List.getElem_map, List.getElem_range]

/-- The LRU counters of a set stay a permutation of `{0, …, assoc-1}`
across `update_lru`: the promoted way's counter becomes 0, the counters
below its old value shift up by one, the rest keep their values. -/
theorem update_lru_perm (n : Nat) (ways : List Way) (k : Nat)
    (hlen : ways.length = n)
    (hperm : (ways.map Way.lru_counter).Perm (List.range n)) :
    ((update_lru_list n ways k).map Way.lru_counter).Perm (List.range n) := by
  have hvl : ∀ i, i < n → (ways.getD i wayDefault).lru_counter < n := by
    intro i hi
    have hm : (ways.getD i wayDefault).lru_counter ∈ ways.map Way.lru_counter := by
      rw [List.getD_eq_getElem _ _ (hlen ▸ hi)]
      exact List.mem_map.mpr ⟨_, List.getElem_mem _, rfl⟩
    exact List.mem_range.mp (hperm.mem_iff.mp hm)
  have hnodup : (ways.map Way.lru_counter).Nodup :=
    hperm.nodup_iff.mpr (List.nodup_range n)
  have hinj : ∀ i j, i < n → j < n →
      (ways.getD i wayDefault).lru_counter = (ways.getD j wayDefault).lru_counter →
      i = j := by
    intro i j hi hj he
    have hi2 : i < (ways.map Way.lru_counter).length := by simp [hlen, hi]
    have hj2 : j < (ways.map Way.lru_counter).length := by simp [hlen, hj]
    have hge : (ways.map Way.lru_counter)[i] = (ways.map Way.lru_counter)[j] := by
      rw [List.getElem_map, List.getElem_map]
      rw [List.getD_eq_getElem _ _ (hlen ▸ hi), List.getD_eq_getElem _ _ (hlen ▸ hj)] at he
      exact he
    exact (hnodup.getElem_inj_iff).mp hge
  have hmap : (update_lru_list n ways k).map Way.lru_counter =
      (List.range n).map (fun i =>
        if i = k then 0
        else if (ways.getD i wayDefault).lru_counter <
            (ways.getD k wayDefault).lru_counter then
          (ways.getD i wayDefault).lru_counter + 1
        else (ways.getD i wayDefault).lru_counter) := by
    unfold update_lru_list
    rw [List.map_map]
    apply List.map_congr_left
    intro i _
    simp only [Function.comp]
    split
    · rfl
    · split <;> rfl
  rw [hmap]
  by_cases hk : k < n
  · -- promoted way in range: the new counters are again a permutation
    apply perm_range_of_nodup_lt _ n (by simp)
    · apply List.Nodup.map_on _ (List.nodup_range n)
      intro i hi j hj hgij
      rw [List.mem_range] at hi hj
      by_cases hik : i = k <;> by_cases hjk : j = k
      · omega
      · exfalso
        rw [if_pos hik, if_neg hjk] at hgij
        have hne : (ways.getD j wayDefault).lru_counter ≠
            (ways.getD k wayDefault).lru_counter := fun he => hjk (hinj j k hj hk he)
        split at hgij <;> omega
      · exfalso
        rw [if_neg hik, if_pos hjk] at hgij
        have hne : (ways.getD i wayDefault).lru_counter ≠
            (ways.getD k wayDefault).lru_counter := fun he => hik (hinj i k hi hk he)
        split at hgij <;> omega
      · rw [if_neg hik, if_neg hjk] at hgij
        by_contra hij
        have hne2 : (ways.getD i wayDefault).lru_counter ≠
            (ways.getD j wayDefault).lru_counter := fun he => hij (hinj i j hi hj he)
        have hnei : (ways.getD i wayDefault).lru_counter ≠
            (ways.getD k wayDefault).lru_counter := fun he => hik (hinj i k hi hk he)
        have hnej : (ways.getD j wayDefault).lru_counter ≠
            (ways.getD k wayDefault).lru_counter := fun he => hjk (hinj j k hj hk he)
        split at hgij <;> split at hgij <;> omega
    · intro x hx
      rw [List.mem_map] at hx
      obtain ⟨i, hi, hgi⟩ := hx
      rw [List.mem_range] at hi
      by_cases hik : i = k
      · rw [if_pos hik] at hgi; omega
      · rw [if_neg hik] at hgi
        have h1 := hvl i hi
        have h2 := hvl k hk
        split at hgi <;> omega
  · -- promoted way out of range (cannot happen in a real run): identity
    have hr : (ways.getD k wayDefault).lru_counter = 0 := by
      rw [List.getD_eq_default _ _ (by omega : ways.length ≤ k)]
      rfl
    have hid : (List.range n).map (fun i =>
        if i = k then 0
        else if (ways.getD i wayDefault).lru_counter <
            (ways.getD k wayDefault).lru_counter then
          (ways.getD i wayDefault).lru_counter + 1
        else (ways.getD i wayDefault).lru_counter) = ways.map Way.lru_counter := by
      apply List.ext_getElem (by simp [hlen])
      intro j h1 h2
      have hj : j < n := by simpa using h1
      simp only [List.getElem_map, List.getElem_range]
      rw [if_neg (by omega : ¬ j = k), hr, if_neg (by omega)]
      rw [List.getD_eq_getElem _ _ (hlen ▸ hj)]
    rw [hid]
    exact hperm

/-- `update_lru` does not change any way's valid, dirty or tag fields. -/
theorem update_lru_fields (n : Nat) (ways : List Way) (k i : Nat) (hi : i < n) :
    ((update_lru_list n ways k).getD i wayDefault).valid = (ways.getD i wayDefault).valid ∧
    ((update_lru_list n ways k).getD i wayDefault).dirty = (ways.getD i wayDefault).dirty ∧
    ((update_lru_list n ways k).getD i wayDefault).tag = (ways.getD i wayDefault).tag := by
  rw [update_lru_getD n ways k i hi]
  split
  · exact ⟨rfl, rfl, rfl⟩
  · split
    · exact ⟨rfl, rfl, rfl⟩
    · exact ⟨rfl, rfl, rfl⟩

/-- `update_lru` sets the promoted way's counter to 0. -/
theorem update_lru_promote (n : Nat) (ways : List Way) (k : Nat) (hk : k < n) :
    ((update_lru_list n ways k).getD k wayDefault).lru_counter = 0 := by
  rw [update_lru_getD n ways k k hk, if_pos rfl]

/-- Tags survive `update_lru` (bounded by any positive bound that held
before). -/
theorem update_lru_tag_lt (n : Nat) (ways : List Way) (k B : Nat)
    (hB : 0 < B) (h : ∀ w ∈ ways, w.tag < B) :
    ∀ w ∈ update_lru_list n ways k, w.tag < B := by
  intro w hw
  unfold update_lru_list at hw
  rw [List.mem_map] at hw
  obtain ⟨i, _, hw⟩ := hw
  have htag : w.tag = (ways.getD i wayDefault).tag := by
    rw [← hw]
    by_cases hik : i = k
    · simp [hik]
    · simp only [if_neg hik]
      split <;> rfl
  rw [htag]
  by_cases hil : i < ways.length
  · rw [List.getD_eq_getElem _ _ hil]
    exact h _ (List.getElem_mem hil)
  · rw [List.getD_eq_default _ _ (by omega)]
    exact hB

/-! ### One-set well-formedness and its preservation -/

theorem SetWF.update_lru {assoc tb : Nat} {s : List Way} (h : SetWF assoc tb s)
    (k : Nat) : SetWF assoc tb (update_lru_list assoc s k) := by
  obtain ⟨h1, h2, h3⟩ := h
  exact ⟨by simp, update_lru_perm assoc s k h1 h2,
    update_lru_tag_lt assoc s k _ (Nat.pos_pow_of_pos tb (by omega)) h3⟩

/-- Replacing a way by one with the same LRU counter and a tag below the
bound preserves `SetWF`. -/
theorem SetWF.set {assoc tb : Nat} {s : List Way} (h : SetWF assoc tb s)
    (i : Nat) (w : Way)
    (hlru : w.lru_counter = (s.getD i wayDefault).lru_counter)
    (htag : w.tag < 2 ^ tb) : SetWF assoc tb (s.set i w) := by
  obtain ⟨h1, h2, h3⟩ := h
  refine ⟨by simp [h1], ?_, ?_⟩
  · by_cases hil : i < s.length
    · have : (s.set i w).map Way.lru_counter = s.map Way.lru_counter := by
        rw [List.map_set, hlru, List.getD_eq_getElem _ _ hil]
        have hmem : i < (s.map Way.lru_counter).length := by simp [hil]
        have : Way.lru_counter s[i] = (s.map Way.lru_counter)[i] := by
          rw [List.getElem_map]
        rw [this, list_set_self]
      rw [this]; exact h2
    · rw [List.set_eq_of_length_le (by omega)]
      exact h2
  · intro x hx
    rcases List.mem_or_eq_of_mem_set hx with hx2 | hx2
    · exact h3 x hx2
    · rw [hx2]; exact htag

/-! ### `check_prefetch` lemmas -/

/-- A probe miss leaves the buffer list untouched. -/
theorem checkPrefetchList_none (m ba : Nat) (l : List StreamBuffer)
    (h : (checkPrefetchList m ba l).1 = none) :
    (checkPrefetchList m ba l).2 = l := by
  induction l with
  | nil => rfl
  | cons b rest ih =>
    unfold checkPrefetchList at h ⊢
    split at h
    · simp at h
    · simp only at h ⊢
      have hr : (checkPrefetchList m ba rest).1 = none := by
        rcases he : (checkPrefetchList m ba rest).1 with _ | v
        · rfl
        · rw [he] at h; simp at h
      rw [ih hr]


/-- A probe hit at position `pi` updates exactly the buffer at `pi`
(its head moves; its blocks are untouched). -/
theorem checkPrefetchList_some (m ba : Nat) (l : List StreamBuffer) (pi : Nat)
    (h : (checkPrefetchList m ba l).1 = some pi) :
    pi < l.length ∧ ∃ nb,
      (checkPrefetchList m ba l).2 = l.set pi nb ∧
      nb.blocks = (l.getD pi sbDefault).blocks := by
  induction l generalizing pi with
  | nil => simp [checkPrefetchList] at h
  | cons b rest ih =>
    rcases hscan : (if b.valid then scanBlocks m b.blocks ba else none) with _ | i
    · have hunf : checkPrefetchList m ba (b :: rest) =
          ((checkPrefetchList m ba rest).1.map (· + 1),
            b :: (checkPrefetchList m ba rest).2) := by
        rw [checkPrefetchList, hscan]
      rw [hunf] at h ⊢
      replace h : (checkPrefetchList m ba rest).1.map (· + 1) = some pi := h
      rcases he : (checkPrefetchList m ba rest).1 with _ | v
      · rw [he] at h; simp at h
      · rw [he] at h
        have hpi : pi = v + 1 := by
          simp at h
          omega
        subst hpi
        obtain ⟨hlt, nb, hset, hblocks⟩ := ih v he
        refine ⟨by simp; omega, nb, ?_, ?_⟩
        · show b :: (checkPrefetchList m ba rest).2 = (b :: rest).set (v + 1) nb
          rw [List.set_cons_succ, hset]
        · show nb.blocks = ((b :: rest).getD (v + 1) sbDefault).blocks
          rw [List.getD_cons_succ]
          exact hblocks
    · have hunf : checkPrefetchList m ba (b :: rest) =
          (some 0, { b with head := (i + 1) % m } :: rest) := by
        rw [checkPrefetchList, hscan]
      rw [hunf] at h ⊢
      have hpi : pi = 0 := by
        have h2 : some 0 = some pi := h
        have h3 := Option.some.inj h2
        omega
      subst hpi
      exact ⟨by simp, { b with head := (i + 1) % m }, rfl, rfl⟩

/-- A probe preserves the length of the buffer list. -/
theorem checkPrefetchList_length (m ba : Nat) (l : List StreamBuffer) :
    (checkPrefetchList m ba l).2.length = l.length := by
  rcases he : (checkPrefetchList m ba l).1 with _ | v
  · rw [checkPrefetchList_none m ba l he]
  · obtain ⟨_, nb, hset, _⟩ := checkPrefetchList_some m ba l v he
    rw [hset, List.length_set]

/-! ### The CONTINUE loop -/

/-- `continueStep` with the boolean comparison unfolded. -/
theorem continueStep_eq (m ba h0 off : Nat)
    (st : List Nat × Nat × List (Nat × Op)) (i : Nat) :
    continueStep m ba h0 off st i =
      if st.1.getD ((h0 + i) % m) 0 = (ba + 1 + i) % M32 then st
      else (st.1.set ((h0 + i) % m) ((ba + 1 + i) % M32), st.2.1 + 1,
            st.2.2 ++ [((((ba + 1 + i) % M32) <<< off) % M32, Op.R)]) := by
  unfold continueStep
  simp only [beq_iff_eq]

/-- After the CONTINUE loop, slot `(head + j) % m` holds
`block_addr + 1 + j` for every `j < m`, and the length is unchanged. -/
theorem continueFold_spec (m ba h0 off : Nat) (blocks : List Nat)
    (hlen : blocks.length = m) :
    (continueFold m ba h0 off blocks).1.length = m ∧
    ∀ j < m, (continueFold m ba h0 off blocks).1.getD ((h0 + j) % m) 0 =
      (ba + 1 + j) % M32 := by
  have key : ∀ k, k ≤ m →
      ((List.range k).foldl (continueStep m ba h0 off) (blocks, 0, [])).1.length = m ∧
      ∀ j < k, ((List.range k).foldl (continueStep m ba h0 off) (blocks, 0, [])).1.getD
        ((h0 + j) % m) 0 = (ba + 1 + j) % M32 := by
    intro k
    induction k with
    | zero => intro _; exact ⟨hlen, by omega⟩
    | succ k ih =>
      intro hk1
      have hk : k < m := by omega
      have hm0 : 0 < m := by omega
      obtain ⟨ihlen, ihspec⟩ := ih (by omega)
      rw [List.range_succ, List.foldl_append]
      set st := (List.range k).foldl (continueStep m ba h0 off) (blocks, 0, []) with hst
      simp only [List.foldl_cons, List.foldl_nil, continueStep_eq]
      have hposlt : (h0 + k) % m < m := Nat.mod_lt _ hm0
      have hdistinct : ∀ j, j < k → (h0 + j) % m ≠ (h0 + k) % m := by
        intro j hj he
        have h1 : j ≡ k [MOD m] := Nat.ModEq.add_left_cancel (Nat.ModEq.refl h0) he
        have h3 : j % m = k % m := h1
        rw [Nat.mod_eq_of_lt (by omega), Nat.mod_eq_of_lt hk] at h3
        omega
      split
      case _ heq =>
        refine ⟨ihlen, ?_⟩
        intro j hj
        rcases Nat.lt_succ_iff_lt_or_eq.mp hj with hj2 | hj2
        · exact ihspec j hj2
        · rw [hj2]; exact heq
      case _ heq =>
        constructor
        · simp [ihlen]
        · intro j hj
          rcases Nat.lt_succ_iff_lt_or_eq.mp hj with hj2 | hj2
          · show (st.1.set ((h0 + k) % m) ((ba + 1 + k) % M32)).getD ((h0 + j) % m) 0 = _
            rw [List.getD_eq_getElem _ _
              (by rw [List.length_set, ihlen]; exact Nat.mod_lt _ hm0)]
            rw [List.getElem_set_ne (fun he => hdistinct j hj2 he.symm)]
            rw [← List.getD_eq_getElem _ 0 (by rw [ihlen]; exact Nat.mod_lt _ hm0)]
            exact ihspec j hj2
          · rw [hj2]
            show (st.1.set ((h0 + k) % m) ((ba + 1 + k) % M32)).getD ((h0 + k) % m) 0 = _
            rw [List.getD_eq_getElem _ _ (by rw [List.length_set, ihlen]; exact hposlt)]
            rw [List.getElem_set_self]
  exact key m (Nat.le_refl m)

/-- A fresh NEW_STREAM buffer satisfies the shape invariant. -/
theorem SBShape_newStream (m ba : Nat) :
    SBShape m ⟨true, 0, newStreamBlocks m ba⟩ := by
  intro _ i hi
  have hm0 : 0 < m := by omega
  have hgd : ∀ j, j < m → (newStreamBlocks m ba).getD j 0 = (ba + 1 + j) % M32 := by
    intro j hj
    rw [List.getD_eq_getElem _ _ (by simp [newStreamBlocks, hj])]
    simp [newStreamBlocks]
  show (newStreamBlocks m ba).getD ((0 + i) % m) 0 =
    ((newStreamBlocks m ba).getD (0 % m) 0 + i) % M32
  rw [Nat.zero_add, Nat.mod_eq_of_lt hi, Nat.zero_mod, hgd i hi, hgd 0 hm0]
  rw [Nat.mod_add_mod]

/-- A CONTINUE-refilled buffer satisfies the shape invariant. -/
theorem SBShape_continue (m ba h0 off : Nat) (blocks : List Nat)
    (hlen : blocks.length = m) :
    SBShape m ⟨true, h0, (continueFold m ba h0 off blocks).1⟩ := by
  intro _ i hi
  have hm0 : 0 < m := by omega
  obtain ⟨hl, hs⟩ := continueFold_spec m ba h0 off blocks hlen
  show (continueFold m ba h0 off blocks).1.getD ((h0 + i) % m) 0 =
    ((continueFold m ba h0 off blocks).1.getD (h0 % m) 0 + i) % M32
  have h0m : h0 % m = (h0 + 0) % m := by simp
  rw [hs i hi, h0m, hs 0 hm0, Nat.mod_add_mod]

/-- A CONTINUE fill restores pool well-formedness, given the target
buffer's blocks are well-sized and the other buffers are well-formed. -/
theorem fillCore_continue_BufsWF (m off ba : Nat) (bufs : List StreamBuffer) (pi : Nat)
    (hpi : pi < bufs.length)
    (hblen : ((bufs.getD pi sbDefault).blocks).length = m)
    (hrest : ∀ b, b ∈ bufs.take pi ++ bufs.drop (pi + 1) →
      b.blocks.length = m ∧ SBShape m b) :
    (fillCore m off ba bufs pi false).1.length = bufs.length ∧
    BufsWF m (fillCore m off ba bufs pi false).1 := by
  unfold fillCore
  constructor
  · simp
    omega
  · intro b hb
    rcases List.mem_cons.mp hb with hb2 | hb2
    · subst hb2
      constructor
      · exact (continueFold_spec _ _ _ _ _ hblen).1
      · exact SBShape_continue _ _ _ _ _ hblen
    · exact hrest b hb2

/-- A NEW_STREAM fill of the back buffer restores pool well-formedness. -/
theorem fillCore_new_BufsWF (m off ba : Nat) (bufs : List StreamBuffer)
    (hall : BufsWF m bufs) :
    (fillCore m off ba bufs (bufs.length - 1) true).1.length = max bufs.length 1 ∧
    BufsWF m (fillCore m off ba bufs (bufs.length - 1) true).1 := by
  unfold fillCore
  constructor
  · simp [List.length_take, List.length_drop]
    omega
  · intro b hb
    rcases List.mem_cons.mp hb with hb2 | hb2
    · subst hb2
      constructor
      · simp [newStreamBlocks]
      · exact SBShape_newStream _ _
    · rcases List.mem_append.mp hb2 with hb3 | hb3
      · exact hall b (List.mem_of_mem_take hb3)
      · exact hall b (List.mem_of_mem_drop hb3)

/-! ### Probe and lookup facts -/

/-- A probe miss leaves the pool unchanged (through `probeOf`). -/
theorem probeOf_none (c : Cache) (a : Nat) (h : (probeOf c a).1 = none) :
    (probeOf c a).2 = c.stream_buffers := by
  unfold probeOf at h ⊢
  split at h
  · rw [if_pos (by assumption)]
    exact checkPrefetchList_none _ _ _ h
  · rw [if_neg (by assumption)]

/-- A probe hit goes through `checkPrefetchList` and requires `pref_n > 0`. -/
theorem probeOf_some (c : Cache) (a pi : Nat) (h : (probeOf c a).1 = some pi) :
    0 < c.pref_n ∧
    (probeOf c a) = checkPrefetchList c.pref_m (blockOf c a) c.stream_buffers := by
  unfold probeOf at h ⊢
  split at h
  · rw [if_pos (by assumption)]
    exact ⟨by assumption, rfl⟩
  · simp at h

/-- A successful tag lookup: the way index is in range, the way is
valid, and its tag matches. -/
theorem lookupWay_some (assoc : Nat) (ways : List Way) (tb i : Nat)
    (h : lookupWay assoc ways tb = some i) :
    i < assoc ∧ (ways.getD i wayDefault).valid = true ∧
      (ways.getD i wayDefault).tag = tb := by
  unfold lookupWay at h
  have hmem := List.mem_of_find?_eq_some h
  have hpred := List.find?_some h
  rw [List.mem_range] at hmem
  rw [Bool.and_eq_true, beq_iff_eq] at hpred
  exact ⟨hmem, hpred.1, hpred.2⟩

/-- `find_victim` returns a way index below `assoc` (when `assoc > 0`). -/
theorem find_victim_lt (assoc : Nat) (ways : List Way) (h : 0 < assoc) :
    find_victim_list assoc ways < assoc := by
  unfold find_victim_list
  have key : ∀ l : List Nat, (∀ x ∈ l, x < assoc) →
      ∀ p : Nat × Nat, p.1 < assoc →
      (l.foldl (fun st i =>
        if (ways.getD i wayDefault).lru_counter > st.2 then
          (i, (ways.getD i wayDefault).lru_counter)
        else st) p).1 < assoc := by
    intro l
    induction l with
    | nil => intro _ p hp; exact hp
    | cons x rest ih =>
      intro hmem p hp
      simp only [List.foldl_cons]
      apply ih (fun y hy => hmem y (List.mem_cons_of_mem _ hy))
      split
      · exact hmem x (List.mem_cons_self _ _)
      · exact hp
  exact key _ (fun x hx => List.mem_range.mp hx) (0, _) h

/-! ### Counter deltas of one `access` -/

theorem access_reads (c : Cache) (a : Nat) (op : Op) :
    ((c.access a op).2.1).reads = c.reads + (if op = Op.R then 1 else 0) := by
  rcases hlk : lookupWay c.assoc (c.sets.getD (indexOf c a) []) (tagOf c a) with _ | i <;>
    rcases hpr : (probeOf c a).1 with _ | pi <;>
      simp only [Cache.access, hlk, hpr]

theorem access_writes (c : Cache) (a : Nat) (op : Op) :
    ((c.access a op).2.1).writes = c.writes + (if op = Op.W then 1 else 0) := by
  rcases hlk : lookupWay c.assoc (c.sets.getD (indexOf c a) []) (tagOf c a) with _ | i <;>
    rcases hpr : (probeOf c a).1 with _ | pi <;>
      simp only [Cache.access, hlk, hpr]

theorem access_read_misses_hit (c : Cache) (a : Nat) (op : Op) (i : Nat)
    (hlk : lookupWay c.assoc (c.sets.getD (indexOf c a) []) (tagOf c a) = some i) :
    ((c.access a op).2.1).read_misses = c.read_misses := by
  rcases hpr : (probeOf c a).1 with _ | pi <;>
    simp only [Cache.access, hlk, hpr]

theorem access_read_misses_probeHit (c : Cache) (a : Nat) (op : Op) (pi : Nat)
    (hpr : (probeOf c a).1 = some pi) :
    ((c.access a op).2.1).read_misses = c.read_misses := by
  rcases hlk : lookupWay c.assoc (c.sets.getD (indexOf c a) []) (tagOf c a) with _ | i <;>
    simp only [Cache.access, hlk, hpr]

theorem access_read_misses_demandMiss (c : Cache) (a : Nat) (op : Op)
    (hlk : lookupWay c.assoc (c.sets.getD (indexOf c a) []) (tagOf c a) = none)
    (hpr : (probeOf c a).1 = none) :
    ((c.access a op).2.1).read_misses =
      c.read_misses + (if op = Op.R then 1 else 0) := by
  simp only [Cache.access, hlk, hpr]

theorem access_write_misses_hit (c : Cache) (a : Nat) (op : Op) (i : Nat)
    (hlk : lookupWay c.assoc (c.sets.getD (indexOf c a) []) (tagOf c a) = some i) :
    ((c.access a op).2.1).write_misses = c.write_misses := by
  rcases hpr : (probeOf c a).1 with _ | pi <;>
    simp only [Cache.access, hlk, hpr]

theorem access_write_misses_probeHit (c : Cache) (a : Nat) (op : Op) (pi : Nat)
    (hpr : (probeOf c a).1 = some pi) :
    ((c.access a op).2.1).write_misses = c.write_misses := by
  rcases hlk : lookupWay c.assoc (c.sets.getD (indexOf c a) []) (tagOf c a) with _ | i <;>
    simp only [Cache.access, hlk, hpr]

theorem access_write_misses_demandMiss (c : Cache) (a : Nat) (op : Op)
    (hlk : lookupWay c.assoc (c.sets.getD (indexOf c a) []) (tagOf c a) = none)
    (hpr : (probeOf c a).1 = none) :
    ((c.access a op).2.1).write_misses =
      c.write_misses + (if op = Op.W then 1 else 0) := by
  simp only [Cache.access, hlk, hpr]

theorem access_write_backs_hit (c : Cache) (a : Nat) (op : Op) (i : Nat)
    (hlk : lookupWay c.assoc (c.sets.getD (indexOf c a) []) (tagOf c a) = some i) :
    ((c.access a op).2.1).write_backs = c.write_backs := by
  rcases hpr : (probeOf c a).1 with _ | pi <;>
    simp only [Cache.access, hlk, hpr]

theorem access_write_backs_miss (c : Cache) (a : Nat) (op : Op)
    (hlk : lookupWay c.assoc (c.sets.getD (indexOf c a) []) (tagOf c a) = none) :
    ((c.access a op).2.1).write_backs =
      c.write_backs +
        (if ((c.sets.getD (indexOf c a) []).getD
              (find_victim_list c.assoc (c.sets.getD (indexOf c a) [])) wayDefault).valid &&
            ((c.sets.getD (indexOf c a) []).getD
              (find_victim_list c.assoc (c.sets.getD (indexOf c a) [])) wayDefault).dirty
         then 1 else 0) := by
  rcases hpr : (probeOf c a).1 with _ | pi <;>
    simp only [Cache.access, hlk, hpr]

theorem access_nextLevelDemands_hit (c : Cache) (a : Nat) (op : Op) (i : Nat)
    (hlk : lookupWay c.assoc (c.sets.getD (indexOf c a) []) (tagOf c a) = some i) :
    ((c.access a op).2.1).nextLevelDemands = c.nextLevelDemands := by
  rcases hpr : (probeOf c a).1 with _ | pi <;>
    simp only [Cache.access, hlk, hpr]

theorem access_nextLevelDemands_probeHit (c : Cache) (a : Nat) (op : Op) (pi : Nat)
    (hpr : (probeOf c a).1 = some pi) :
    ((c.access a op).2.1).nextLevelDemands = c.nextLevelDemands := by
  rcases hlk : lookupWay c.assoc (c.sets.getD (indexOf c a) []) (tagOf c a) with _ | i <;>
    simp only [Cache.access, hlk, hpr]

theorem access_nextLevelDemands_demandMiss (c : Cache) (a : Nat) (op : Op)
    (hlk : lookupWay c.assoc (c.sets.getD (indexOf c a) []) (tagOf c a) = none)
    (hpr : (probeOf c a).1 = none) :
    ((c.access a op).2.1).nextLevelDemands =
      c.nextLevelDemands + (if c.hasLower then 1 else 0) := by
  simp only [Cache.access, hlk, hpr]

/-- `access` never changes the geometry fields. -/
theorem access_geom (c : Cache) (a : Nat) (op : Op) :
    ((c.access a op).2.1).blocksize = c.blocksize ∧
    ((c.access a op).2.1).size = c.size ∧
    ((c.access a op).2.1).assoc = c.assoc ∧
    ((c.access a op).2.1).pref_n = c.pref_n ∧
    ((c.access a op).2.1).pref_m = c.pref_m ∧
    ((c.access a op).2.1).hasLower = c.hasLower ∧
    ((c.access a op).2.1).num_sets = c.num_sets ∧
    ((c.access a op).2.1).num_index_bits = c.num_index_bits ∧
    ((c.access a op).2.1).num_offset_bits = c.num_offset_bits ∧
    ((c.access a op).2.1).num_tag_bits = c.num_tag_bits := by
  rcases hlk : lookupWay c.assoc (c.sets.getD (indexOf c a) []) (tagOf c a) with _ | i <;>
    rcases hpr : (probeOf c a).1 with _ | pi <;>
      simp only [Cache.access, hlk, hpr] <;>
        exact ⟨trivial, trivial, trivial, trivial, trivial,
          trivial, trivial, trivial, trivial, trivial⟩

/-! ### Counter invariants over runs -/

/-- The conservation invariant on the counters (the provable part of the
spec's conservation law, with the writeback bound corrected). -/
def CounterInv (c : Cache) : Prop :=
  c.read_misses ≤ c.reads ∧ c.write_misses ≤ c.writes ∧
    c.write_backs ≤ c.reads + c.writes

theorem access_CounterInv (c : Cache) (a : Nat) (op : Op)
    (h : CounterInv c) : CounterInv ((c.access a op).2.1) := by
  obtain ⟨h1, h2, h3⟩ := h
  have hr := access_reads c a op
  have hw := access_writes c a op
  have hrm : ((c.access a op).2.1).read_misses ≤
      c.read_misses + (if op = Op.R then 1 else 0) := by
    rcases hlk : lookupWay c.assoc (c.sets.getD (indexOf c a) []) (tagOf c a) with _ | i
    · rcases hpr : (probeOf c a).1 with _ | pi
      · rw [access_read_misses_demandMiss c a op hlk hpr]
      · rw [access_read_misses_probeHit c a op pi hpr]
        exact Nat.le_add_right _ _
    · rw [access_read_misses_hit c a op i hlk]
      exact Nat.le_add_right _ _
  have hwm : ((c.access a op).2.1).write_misses ≤
      c.write_misses + (if op = Op.W then 1 else 0) := by
    rcases hlk : lookupWay c.assoc (c.sets.getD (indexOf c a) []) (tagOf c a) with _ | i
    · rcases hpr : (probeOf c a).1 with _ | pi
      · rw [access_write_misses_demandMiss c a op hlk hpr]
      · rw [access_write_misses_probeHit c a op pi hpr]
        exact Nat.le_add_right _ _
    · rw [access_write_misses_hit c a op i hlk]
      exact Nat.le_add_right _ _
  have hwb : ((c.access a op).2.1).write_backs ≤ c.write_backs + 1 := by
    rcases hlk : lookupWay c.assoc (c.sets.getD (indexOf c a) []) (tagOf c a) with _ | i
    · rw [access_write_backs_miss c a op hlk]
      split <;> omega
    · rw [access_write_backs_hit c a op i hlk]
      omega
  rcases op <;> simp at hr hw hrm hwm <;>
    exact ⟨by omega, by omega, by omega⟩

theorem runTrace_CounterInv (c : Cache) (tr : List (Nat × Op))
    (h : CounterInv c) : CounterInv (runTrace c tr) := by
  induction tr generalizing c with
  | nil => exact h
  | cons p rest ih => exact ih _ (access_CounterInv c p.1 p.2 h)

/-- The demand-suppression invariant: with a lower level the demand
count always equals the miss count; without one it is zero. -/
def DemandInv (c : Cache) : Prop :=
  (c.hasLower = true → c.nextLevelDemands = c.read_misses + c.write_misses) ∧
  (c.hasLower = false → c.nextLevelDemands = 0)

theorem access_DemandInv (c : Cache) (a : Nat) (op : Op)
    (h : DemandInv c) : DemandInv ((c.access a op).2.1) := by
  obtain ⟨h1, h2⟩ := h
  have hgeom := (access_geom c a op).2.2.2.2.2.1
  rcases hlk : lookupWay c.assoc (c.sets.getD (indexOf c a) []) (tagOf c a) with _ | i
  · rcases hpr : (probeOf c a).1 with _ | pi
    · have hrm := access_read_misses_demandMiss c a op hlk hpr
      have hwm := access_write_misses_demandMiss c a op hlk hpr
      have hn := access_nextLevelDemands_demandMiss c a op hlk hpr
      constructor
      · intro hl
        rw [hgeom] at hl
        rw [hn, hrm, hwm, hl]
        rcases op <;> simp [h1 hl] <;> omega
      · intro hl
        rw [hgeom] at hl
        rw [hn, hl]
        simp [h2 hl]
    · have hrm := access_read_misses_probeHit c a op pi hpr
      have hwm := access_write_misses_probeHit c a op pi hpr
      have hn := access_nextLevelDemands_probeHit c a op pi hpr
      constructor <;> intro hl <;> rw [hgeom] at hl <;> simp only [hn, hrm, hwm]
      · exact h1 hl
      · exact h2 hl
  · have hrm := access_read_misses_hit c a op i hlk
    have hwm := access_write_misses_hit c a op i hlk
    have hn := access_nextLevelDemands_hit c a op i hlk
    constructor <;> intro hl <;> rw [hgeom] at hl <;> simp only [hn, hrm, hwm]
    · exact h1 hl
    · exact h2 hl

theorem runTrace_DemandInv (c : Cache) (tr : List (Nat × Op))
    (h : DemandInv c) : DemandInv (runTrace c tr) := by
  induction tr generalizing c with
  | nil => exact h
  | cons p rest ih => exact ih _ (access_DemandInv c p.1 p.2 h)

/-- `hasLower` is preserved by whole runs. -/
theorem runTrace_hasLower (c : Cache) (tr : List (Nat × Op)) :
    (runTrace c tr).hasLower = c.hasLower := by
  induction tr generalizing c with
  | nil => rfl
  | cons p rest ih =>
    show (runTrace ((c.access p.1 p.2).2.1) rest).hasLower = c.hasLower
    rw [ih, (access_geom c p.1 p.2).2.2.2.2.2.1]

/-! ### Well-formedness is preserved by `access` -/

/-- The extracted tag of a 32-bit address fits in `num_tag_bits`. -/
theorem access_tag_lt (c : Cache) (a : Nat) (h32 : c.num_tag_bits ≤ 32)
    (ha : a < M32) : tagOf c a < 2 ^ c.num_tag_bits := by
  unfold tagOf
  rw [Nat.shiftRight_eq_div_pow]
  rw [Nat.div_lt_iff_lt_mul (Nat.pos_pow_of_pos _ (by omega))]
  have h1 : 2 ^ c.num_tag_bits * 2 ^ (32 - c.num_tag_bits) = 2 ^ (32 : Nat) := by
    rw [← pow_add]
    congr 1
    omega
  have h2 : M32 = 2 ^ (32 : Nat) := by norm_num [M32]
  omega

/-- Setting a position of a list to a new, well-formed element keeps a
universally quantified property. -/
theorem forall_mem_set {α : Type} (P : α → Prop) (l : List α) (i : Nat) (x : α)
    (hl : ∀ y ∈ l, P y) (hx : P x ∨ l = []) : ∀ y ∈ l.set i x, P y := by
  intro y hy
  rcases hx with hx | hx
  · rcases List.mem_or_eq_of_mem_set hy with h | h
    · exact hl y h
    · rw [h]; exact hx
  · subst hx; simp at hy

set_option maxHeartbeats 1000000 in
/-- One `access` preserves cache well-formedness (for a 32-bit address). -/
theorem access_WF (c : Cache) (a : Nat) (op : Op) (hwf : WF c) (ha : a < M32) :
    WF ((c.access a op).2.1) := by
  obtain ⟨h32, htb, hns, hsl, hsets, hbl, hbufs⟩ := hwf
  have htag : tagOf c a < 2 ^ c.num_tag_bits := access_tag_lt c a (by omega) ha
  have htb0 : (0 : Nat) < 2 ^ c.num_tag_bits := Nat.pos_pow_of_pos _ (by omega)
  -- the indexed set is well-formed, or the tag array is empty
  have hWays : SetWF c.assoc c.num_tag_bits (c.sets.getD (indexOf c a) []) ∨
      c.sets = [] := by
    rcases Nat.eq_zero_or_pos c.sets.length with h0 | hpos
    · right; exact List.length_eq_zero.mp h0
    · left
      have hidx : indexOf c a < c.sets.length := by
        have hmod : indexOf c a < 2 ^ c.num_index_bits :=
          Nat.mod_lt _ (Nat.pos_pow_of_pos _ (by omega))
        rcases hns with h0 | hle <;> omega
      rw [List.getD_eq_getElem _ _ hidx]
      exact hsets _ (List.getElem_mem hidx)
  -- any way's tag in a well-formed set is bounded
  have hvtag : ∀ ways : List Way, SetWF c.assoc c.num_tag_bits ways →
      ∀ k, ((ways.getD k wayDefault)).tag < 2 ^ c.num_tag_bits := by
    intro ways hw k
    by_cases hkl : k < ways.length
    · rw [List.getD_eq_getElem _ _ hkl]
      exact hw.2.2 _ (List.getElem_mem hkl)
    · rw [List.getD_eq_default _ _ (by omega)]
      exact htb0
  -- continue-fill on the probe result keeps the pool well-formed
  have hfillC : ∀ pi, (probeOf c a).1 = some pi →
      (fillCore c.pref_m c.num_offset_bits (blockOf c a) (probeOf c a).2 pi false).1.length
        = c.pref_n ∧
      BufsWF c.pref_m
        (fillCore c.pref_m c.num_offset_bits (blockOf c a) (probeOf c a).2 pi false).1 := by
    intro pi hpr
    obtain ⟨hpn, hpeq⟩ := probeOf_some c a pi hpr
    have hch : (checkPrefetchList c.pref_m (blockOf c a) c.stream_buffers).1 = some pi := by
      rw [← hpeq]; exact hpr
    obtain ⟨hlt, nb, hset, hblocks⟩ :=
      checkPrefetchList_some c.pref_m (blockOf c a) c.stream_buffers pi hch
    have hpr2 : (probeOf c a).2 = c.stream_buffers.set pi nb := by
      rw [hpeq]; exact hset
    have hgd : ((probeOf c a).2.getD pi sbDefault) = nb := by
      rw [hpr2, List.getD_eq_getElem _ _ (by rw [List.length_set]; exact hlt)]
      exact List.getElem_set_self _
    have hblen : (((probeOf c a).2.getD pi sbDefault).blocks).length = c.pref_m := by
      rw [hgd, hblocks]
      rw [List.getD_eq_getElem _ _ hlt]
      exact (hbufs _ (List.getElem_mem hlt)).1
    have hrest : ∀ b, b ∈ (probeOf c a).2.take pi ++ (probeOf c a).2.drop (pi + 1) →
        b.blocks.length = c.pref_m ∧ SBShape c.pref_m b := by
      intro b hb
      rw [hpr2, take_set_eq, List.drop_set, if_pos (by omega)] at hb
      rcases List.mem_append.mp hb with hb2 | hb2
      · exact hbufs b (List.mem_of_mem_take hb2)
      · exact hbufs b (List.mem_of_mem_drop hb2)
    have hlen2 : pi < (probeOf c a).2.length := by
      rw [hpr2, List.length_set]; exact hlt
    obtain ⟨hl1, hl2⟩ := fillCore_continue_BufsWF c.pref_m c.num_offset_bits (blockOf c a)
      (probeOf c a).2 pi hlen2 hblen hrest
    refine ⟨?_, hl2⟩
    rw [hl1, hpr2, List.length_set, hbl]
  rcases hlk : lookupWay c.assoc (c.sets.getD (indexOf c a) []) (tagOf c a) with _ | i
  · rcases hpr : (probeOf c a).1 with _ | pi
    · -- miss + probe miss
      simp only [Cache.access, hlk, hpr]
      have hpn := probeOf_none c a hpr
      refine ⟨h32, htb, hns, by simp [hsl], ?_, ?_, ?_⟩
      · apply forall_mem_set _ _ _ _ hsets
        rcases hWays with hW | hW
        · left
          refine SetWF.update_lru (SetWF.set ?_ _ _ ?_ ?_) _
          · split
            · refine SetWF.set hW _ _ ?_ ?_
              · rfl
              · exact hvtag _ hW _
            · exact hW
          · rfl
          · exact htag
        · right; exact hW
      · dsimp only
        split
        next hn =>
          rw [(fillCore_new_BufsWF c.pref_m c.num_offset_bits (blockOf c a)
            (probeOf c a).2 (by rw [hpn]; exact hbufs)).1]
          rw [hpn, hbl]
          omega
        next hn =>
          rw [hpn]; exact hbl
      · dsimp only
        split
        · exact (fillCore_new_BufsWF c.pref_m c.num_offset_bits (blockOf c a)
            (probeOf c a).2 (by rw [hpn]; exact hbufs)).2
        · rw [hpn]; exact hbufs
    · -- miss + probe hit
      simp only [Cache.access, hlk, hpr]
      obtain ⟨hfl, hfw⟩ := hfillC pi hpr
      refine ⟨h32, htb, hns, by simp [hsl], ?_, hfl, hfw⟩
      apply forall_mem_set _ _ _ _ hsets
      rcases hWays with hW | hW
      · left
        refine SetWF.update_lru (SetWF.set ?_ _ _ ?_ ?_) _
        · split
          · refine SetWF.set hW _ _ ?_ ?_
            · rfl
            · exact hvtag _ hW _
          · exact hW
        · rfl
        · exact htag
      · right; exact hW
  · rcases hpr : (probeOf c a).1 with _ | pi
    · -- hit + probe miss
      simp only [Cache.access, hlk, hpr]
      have hpn := probeOf_none c a hpr
      refine ⟨h32, htb, hns, by simp [hsl], ?_, by rw [hpn]; exact hbl,
        by rw [hpn]; exact hbufs⟩
      apply forall_mem_set _ _ _ _ hsets
      rcases hWays with hW | hW
      · left
        refine SetWF.update_lru ?_ _
        split
        · refine SetWF.set hW _ _ ?_ ?_
          · rfl
          · exact hvtag _ hW _
        · exact hW
      · right; exact hW
    · -- hit + probe hit
      simp only [Cache.access, hlk, hpr]
      obtain ⟨hfl, hfw⟩ := hfillC pi hpr
      refine ⟨h32, htb, hns, by simp [hsl], ?_, hfl, hfw⟩
      apply forall_mem_set _ _ _ _ hsets
      rcases hWays with hW | hW
      · left
        refine SetWF.update_lru ?_ _
        split
        · refine SetWF.set hW _ _ ?_ ?_
          · rfl
          · exact hvtag _ hW _
        · exact hW
      · right; exact hW

/-- Well-formedness is preserved by whole runs of 32-bit addresses. -/
theorem runTrace_WF (c : Cache) (tr : List (Nat × Op))
    (h : WF c) (ha : ∀ p ∈ tr, p.1 < M32) : WF (runTrace c tr) := by
  induction tr generalizing c with
  | nil => exact h
  | cons p rest ih =>
    exact ih _ (access_WF c p.1 p.2 h (ha p (List.mem_cons_self _ _)))
      (fun q hq => ha q (List.mem_cons_of_mem _ hq))

/-- A freshly constructed cache (with sane geometry) is well-formed. -/
theorem mkCache_WF (bs sz as pn pm : Nat) (hl : Bool)
    (h32 : ilog2 (sz / (bs * as)) + ilog2 bs ≤ 32) :
    WF (mkCache bs sz as pn pm hl) := by
  refine ⟨h32, rfl, ?_, by simp [mkCache], ?_, by simp [mkCache], ?_⟩
  · rcases Nat.eq_zero_or_pos (sz / (bs * as)) with h0 | hpos
    · left; exact h0
    · right
      show 2 ^ ilog2 (sz / (bs * as)) ≤ sz / (bs * as)
      rw [ilog2_eq_log2]
      exact Nat.log2_self_le (by omega)
  · intro s hs
    simp only [mkCache] at hs
    rw [List.mem_replicate] at hs
    rw [hs.2]
    refine ⟨by simp [mkCache], ?_, ?_⟩
    · have hmap : ((List.range as).map
          (fun j => (⟨false, false, 0, j⟩ : Way))).map Way.lru_counter =
          List.range as := by
        rw [List.map_map]
        exact List.map_id _
      rw [hmap]
      exact List.Perm.refl _
    · intro w hw
      rw [List.mem_map] at hw
      obtain ⟨j, _, hj⟩ := hw
      rw [← hj]
      exact Nat.pos_pow_of_pos _ (by omega)
  · intro b hb
    simp only [mkCache] at hb
    rw [List.mem_replicate] at hb
    rw [hb.2]
    refine ⟨by simp [mkCache], ?_⟩
    intro hv
    simp at hv

/-! ### More list helpers -/

theorem getD_set_ne {α : Type} (l : List α) (i j : Nat) (x d : α) (h : i ≠ j) :
    (l.set i x).getD j d = l.getD j d := by
  rw [List.getD_eq_getElem?_getD, List.getD_eq_getElem?_getD, List.getElem?_set,
    if_neg h]

theorem getD_set_self_of_lt {α : Type} (l : List α) (i : Nat) (x d : α)
    (h : i < l.length) : (l.set i x).getD i d = x := by
  rw [List.getD_eq_getElem _ _ (by rw [List.length_set]; exact h)]
  exact List.getElem_set_self _

/-- A single write access always increments the `writes` counter by one
(the lower level treats a writeback like a program write). -/
theorem access_W_writes (L : Cache) (addr : Nat) :
    ((L.access addr Op.W).2.1).writes = L.writes + 1 := by
  have h := access_writes L addr Op.W
  simpa using h

/-! ### Claim C2: conservation -/

/-- Counterexample to C2 as stated: after `w 0x0, w 0x10, w 0x40, w 0x50`
on a 64B direct-mapped cache with one 4-deep stream buffer and no lower
level, `write_backs = 2` but `read_misses + write_misses = 1`; the two
dirty evictions happened on misses that hit the stream buffer, which do
not increment the miss counters. -/
theorem C2_counterexample :
    ¬ ((runTrace (mkCache 16 64 1 1 4 false)
          [(0x0, Op.W), (0x10, Op.W), (0x40, Op.W), (0x50, Op.W)]).write_backs ≤
        (runTrace (mkCache 16 64 1 1 4 false)
          [(0x0, Op.W), (0x10, Op.W), (0x40, Op.W), (0x50, Op.W)]).read_misses +
        (runTrace (mkCache 16 64 1 1 4 false)
          [(0x0, Op.W), (0x10, Op.W), (0x40, Op.W), (0x50, Op.W)]).write_misses) := by
  decide

/-- C2 (amended): in every run from a fresh cache,
`read_misses ≤ reads`, `write_misses ≤ writes`, and
`write_backs ≤ reads + writes` (an eviction happens only on a miss, but
a miss that hits a stream buffer evicts without counting a miss, so the
writeback bound is against total accesses, not counted misses). -/
theorem C2_conservation (bs sz as pn pm : Nat) (hl : Bool)
    (tr : List (Nat × Op)) :
    (runTrace (mkCache bs sz as pn pm hl) tr).read_misses ≤
      (runTrace (mkCache bs sz as pn pm hl) tr).reads ∧
    (runTrace (mkCache bs sz as pn pm hl) tr).write_misses ≤
      (runTrace (mkCache bs sz as pn pm hl) tr).writes ∧
    (runTrace (mkCache bs sz as pn pm hl) tr).write_backs ≤
      (runTrace (mkCache bs sz as pn pm hl) tr).reads +
      (runTrace (mkCache bs sz as pn pm hl) tr).writes :=
  runTrace_CounterInv _ tr ⟨Nat.le_refl 0, Nat.le_refl 0, Nat.le_refl 0⟩

/-! ### Claim C3: demand suppression -/

/-- Counterexample to C3 as stated: on `r 0x0, r 0x10` with a lower
level present, a prefetch probe hit occurs during the run, yet
`nextLevelDemands = read_misses + write_misses` still holds (both
counters increment only in the miss + probe-miss branch). -/
theorem C3_counterexample :
    ¬ (((runTrace (mkCache 16 64 1 1 4 true)
          [(0x0, Op.R), (0x10, Op.R)]).nextLevelDemands =
        (runTrace (mkCache 16 64 1 1 4 true)
          [(0x0, Op.R), (0x10, Op.R)]).read_misses +
        (runTrace (mkCache 16 64 1 1 4 true)
          [(0x0, Op.R), (0x10, Op.R)]).write_misses) ↔
       runHadProbeHit (mkCache 16 64 1 1 4 true)
         [(0x0, Op.R), (0x10, Op.R)] = false) := by
  decide

/-- C3 (amended): in every run, `nextLevelDemands ≤ read_misses +
write_misses`; equality holds iff the cache has a lower level or no
miss was ever counted.  (Both counters increment in exactly the same
branch — miss with probe miss — so with a lower level they are always
equal, prefetch hits or not; without one, `nextLevelDemands` stays 0.) -/
theorem C3_demand_suppression (bs sz as pn pm : Nat) (hl : Bool)
    (tr : List (Nat × Op)) :
    (runTrace (mkCache bs sz as pn pm hl) tr).nextLevelDemands ≤
      (runTrace (mkCache bs sz as pn pm hl) tr).read_misses +
      (runTrace (mkCache bs sz as pn pm hl) tr).write_misses ∧
    ((runTrace (mkCache bs sz as pn pm hl) tr).nextLevelDemands =
      (runTrace (mkCache bs sz as pn pm hl) tr).read_misses +
      (runTrace (mkCache bs sz as pn pm hl) tr).write_misses ↔
     (hl = true ∨
      (runTrace (mkCache bs sz as pn pm hl) tr).read_misses +
      (runTrace (mkCache bs sz as pn pm hl) tr).write_misses = 0)) := by
  have hd := runTrace_DemandInv (mkCache bs sz as pn pm hl) tr
    ⟨fun _ => rfl, fun _ => rfl⟩
  have hhl : (runTrace (mkCache bs sz as pn pm hl) tr).hasLower = hl :=
    runTrace_hasLower _ tr
  obtain ⟨h1, h2⟩ := hd
  rcases hl with _ | _
  · have h0 := h2 (by rw [hhl])
    constructor
    · omega
    · constructor
      · intro he; right; omega
      · rintro (habs | hz)
        · exact absurd habs (by simp)
        · omega
  · have he := h1 (by rw [hhl])
    exact ⟨Nat.le_of_eq he, ⟨fun _ => Or.inl rfl, fun _ => he⟩⟩

/-! ### Claim C4: the four-read prefetch scenario -/

/-- Counterexample to C4 as stated: the run ends with
`nextLevelDemands = 0`, not 1 — with no lower level the demand read is
never issued and the counter is never incremented. -/
theorem C4_counterexample :
    ¬ ((runTrace (mkCache 16 64 1 1 4 false)
          [(0x0, Op.R), (0x10, Op.R), (0x20, Op.R), (0x30, Op.R)]).prefetches = 7 ∧
       (runTrace (mkCache 16 64 1 1 4 false)
          [(0x0, Op.R), (0x10, Op.R), (0x20, Op.R), (0x30, Op.R)]).read_misses = 1 ∧
       (runTrace (mkCache 16 64 1 1 4 false)
          [(0x0, Op.R), (0x10, Op.R), (0x20, Op.R), (0x30, Op.R)]).nextLevelDemands = 1) := by
  decide

/-- C4 (amended): for blocksize 16, size 64, assoc 1, one 4-deep stream
buffer and no lower level, `r 0x0, r 0x10, r 0x20, r 0x30` ends with
`prefetches = 7`, `read_misses = 1` and `nextLevelDemands = 0`: the
first access starts a stream over blocks {1,2,3,4} (4 prefetches), the
next three are cache misses that hit the stream buffer, each refilling
exactly one slot (blocks 5, 6, 7), and no demand is ever issued because
there is no lower level. -/
theorem C4_prefetch_run :
    (runTrace (mkCache 16 64 1 1 4 false)
        [(0x0, Op.R), (0x10, Op.R), (0x20, Op.R), (0x30, Op.R)]).prefetches = 7 ∧
    (runTrace (mkCache 16 64 1 1 4 false)
        [(0x0, Op.R), (0x10, Op.R), (0x20, Op.R), (0x30, Op.R)]).read_misses = 1 ∧
    (runTrace (mkCache 16 64 1 1 4 false)
        [(0x0, Op.R), (0x10, Op.R), (0x20, Op.R), (0x30, Op.R)]).nextLevelDemands = 0 := by
  decide

/-! ### Claims C5 and C6: structural invariants over runs -/

theorem runTrace_assoc (c : Cache) (tr : List (Nat × Op)) :
    (runTrace c tr).assoc = c.assoc := by
  induction tr generalizing c with
  | nil => rfl
  | cons p rest ih =>
    show (runTrace ((c.access p.1 p.2).2.1) rest).assoc = c.assoc
    rw [ih, (access_geom c p.1 p.2).2.2.1]

theorem runTrace_pref_m (c : Cache) (tr : List (Nat × Op)) :
    (runTrace c tr).pref_m = c.pref_m := by
  induction tr generalizing c with
  | nil => rfl
  | cons p rest ih =>
    show (runTrace ((c.access p.1 p.2).2.1) rest).pref_m = c.pref_m
    rw [ih, (access_geom c p.1 p.2).2.2.2.2.1]

/-- C5: after any run from a fresh cache, every set's LRU counters form
exactly the multiset `{0, …, assoc-1}`; and the promotion step
(`update_lru`) preserves this property of a set. -/
theorem C5_lru_rank_permutation (bs sz as pn pm : Nat) (hl : Bool)
    (tr : List (Nat × Op))
    (h32 : ilog2 (sz / (bs * as)) + ilog2 bs ≤ 32)
    (ha : ∀ p ∈ tr, p.1 < M32) :
    (∀ s ∈ (runTrace (mkCache bs sz as pn pm hl) tr).sets,
      ((s.map Way.lru_counter : List Nat) : Multiset Nat) =
        ((List.range as : List Nat) : Multiset Nat)) ∧
    (∀ (ways : List Way) (k : Nat), ways.length = as →
      (ways.map Way.lru_counter).Perm (List.range as) →
      ((update_lru_list as ways k).map Way.lru_counter).Perm (List.range as)) := by
  constructor
  · intro s hs
    have hwf := runTrace_WF _ tr (mkCache_WF bs sz as pn pm hl h32) ha
    have hassoc : (runTrace (mkCache bs sz as pn pm hl) tr).assoc = as :=
      runTrace_assoc _ tr
    have hperm := (hwf.2.2.2.2.1 s hs).2.1
    rw [hassoc] at hperm
    exact Multiset.coe_eq_coe.mpr hperm
  · intro ways k hlen hperm
    exact update_lru_perm as ways k hlen hperm

theorem C5_lru_rank_permutation_witness :
    ((((runTrace (mkCache 16 64 2 0 0 false) [(0, Op.R)]).sets.getD 0 []).map
        Way.lru_counter : List Nat) : Multiset Nat) =
      ((List.range 2 : List Nat) : Multiset Nat) :=
  (C5_lru_rank_permutation 16 64 2 0 0 false [(0, Op.R)] (by decide)
    (by intro p hp; rw [List.mem_singleton] at hp; subst hp; decide)).1 _ (by decide)

/-- C6: after any run from a fresh cache, every stream buffer holds
exactly `pref_m` block addresses, and every valid one, read from `head`
and wrapping, is a unit-stride ascending run `base, base+1, …` (modulo
`2^32`, matching the `uint32_t` arithmetic of the fills). -/
theorem C6_stream_buffer_shape (bs sz as pn pm : Nat) (hl : Bool)
    (tr : List (Nat × Op))
    (h32 : ilog2 (sz / (bs * as)) + ilog2 bs ≤ 32)
    (ha : ∀ p ∈ tr, p.1 < M32) :
    ∀ b ∈ (runTrace (mkCache bs sz as pn pm hl) tr).stream_buffers,
      b.blocks.length = pm ∧
      (b.valid = true → ∃ base, ∀ i < pm,
        b.blocks.getD ((b.head + i) % pm) 0 = (base + i) % M32) := by
  intro b hb
  have hwf := runTrace_WF _ tr (mkCache_WF bs sz as pn pm hl h32) ha
  have hpm : (runTrace (mkCache bs sz as pn pm hl) tr).pref_m = pm :=
    runTrace_pref_m _ tr
  have h1 := hwf.2.2.2.2.2.2 b hb
  rw [hpm] at h1
  exact ⟨h1.1, fun hv =>
    ⟨b.blocks.getD (b.head % pm) 0, fun i hi => h1.2 hv i hi⟩⟩

theorem C6_stream_buffer_shape_witness :
    ((runTrace (mkCache 16 64 1 1 4 false) [(0, Op.R)]).stream_buffers.getD 0
        sbDefault).blocks.length = 4 ∧
    (((runTrace (mkCache 16 64 1 1 4 false) [(0, Op.R)]).stream_buffers.getD 0
        sbDefault).valid = true →
      ∃ base, ∀ i < 4,
        ((runTrace (mkCache 16 64 1 1 4 false) [(0, Op.R)]).stream_buffers.getD 0
          sbDefault).blocks.getD
            ((((runTrace (mkCache 16 64 1 1 4 false) [(0, Op.R)]).stream_buffers.getD 0
              sbDefault).head + i) % 4) 0 = (base + i) % M32) :=
  C6_stream_buffer_shape 16 64 1 1 4 false [(0, Op.R)] (by decide)
    (by intro p hp; rw [List.mem_singleton] at hp; subst hp; decide) _ (by decide)

/-! ### Claim C9: miss-rate formulas of `printStats` -/

/-- The two-level run used to refute C9: `w 0x0, w 0x100` through an L1
(16B blocks, 64B, direct-mapped, no prefetcher) backed by an L2 (256B,
2-way).  The writeback of block 0 makes L2's writes differ from its
demand reads. -/
def c9Pair : Cache × Cache :=
  runPair (mkCache 16 64 1 0 0 true, mkCache 16 256 2 0 0 false)
    [(0x0, Op.W), (0x100, Op.W)]

/-- Counterexample to C9 as stated: the reported L2 miss rate (line n of
`printStats`) is `max(0, L2.read_misses / L1.nextLevelDemands)`, which
on this run is `2/2 = 1`, while the claimed per-level formula
`(read_misses + write_misses) / (reads + writes)` gives `2/3`. -/
theorem C9_counterexample :
    l2MissRate c9Pair.1 c9Pair.2 ≠
      max 0 (((c9Pair.2.read_misses : ℚ) + (c9Pair.2.write_misses : ℚ)) /
             ((c9Pair.2.reads : ℚ) + (c9Pair.2.writes : ℚ))) := by
  have h1 : c9Pair.2.read_misses = 2 := by decide
  have h2 : c9Pair.2.write_misses = 0 := by decide
  have h3 : c9Pair.2.reads = 2 := by decide
  have h4 : c9Pair.2.writes = 1 := by decide
  have h5 : c9Pair.1.nextLevelDemands = 2 := by decide
  rw [l2MissRate, h1, h2, h3, h4, h5]
  norm_num

/-- C9 (amended): the L1 miss rate (line e) does follow the safe
formula `max(0, (read_misses + write_misses)/(reads + writes))`: over
any run it lies in `[0, 1]` and is 0 when no access was made; the L2
line instead reports `max(0, L2.read_misses / L1.nextLevelDemands)`, a
demand-read miss ratio, not a rate over L2's own accesses. -/
theorem C9_miss_rate (bs sz as pn pm : Nat) (hl : Bool)
    (tr : List (Nat × Op)) :
    0 ≤ l1MissRate (runTrace (mkCache bs sz as pn pm hl) tr) ∧
    l1MissRate (runTrace (mkCache bs sz as pn pm hl) tr) ≤ 1 ∧
    ((runTrace (mkCache bs sz as pn pm hl) tr).reads +
     (runTrace (mkCache bs sz as pn pm hl) tr).writes = 0 →
      l1MissRate (runTrace (mkCache bs sz as pn pm hl) tr) = 0) := by
  obtain ⟨h1, h2, h3⟩ := runTrace_CounterInv (mkCache bs sz as pn pm hl) tr
    ⟨Nat.le_refl 0, Nat.le_refl 0, Nat.le_refl 0⟩
  set c := runTrace (mkCache bs sz as pn pm hl) tr with hc
  refine ⟨le_max_left _ _, ?_, ?_⟩
  · unfold l1MissRate
    rcases Nat.eq_zero_or_pos (c.reads + c.writes) with h0 | hpos
    · have hr0 : c.reads = 0 := by omega
      have hw0 : c.writes = 0 := by omega
      have hrm0 : c.read_misses = 0 := by omega
      have hwm0 : c.write_misses = 0 := by omega
      rw [hr0, hw0, hrm0, hwm0]
      norm_num
    · apply max_le (by norm_num)
      have hden : (0:ℚ) < (c.reads : ℚ) + (c.writes : ℚ) := by
        have hq : (0:ℚ) < ((c.reads + c.writes : ℕ) : ℚ) := by
          exact_mod_cast hpos
        push_cast at hq
        exact hq
      rw [div_le_one hden]
      have hle : ((c.read_misses + c.write_misses : ℕ) : ℚ) ≤
          ((c.reads + c.writes : ℕ) : ℚ) := by
        exact_mod_cast Nat.add_le_add h1 h2
      push_cast at hle
      exact hle
  · intro h0
    unfold l1MissRate
    have hr0 : c.reads = 0 := by omega
    have hw0 : c.writes = 0 := by omega
    have hrm0 : c.read_misses = 0 := by omega
    have hwm0 : c.write_misses = 0 := by omega
    rw [hr0, hw0, hrm0, hwm0]
    norm_num

theorem C9_miss_rate_witness :
    (runTrace (mkCache 16 64 1 0 0 false) []).reads +
      (runTrace (mkCache 16 64 1 0 0 false) []).writes = 0 ∧
    l1MissRate (runTrace (mkCache 16 64 1 0 0 false) []) = 0 :=
  ⟨by decide, (C9_miss_rate 16 64 1 0 0 false []).2.2 (by decide)⟩

/-! ### Claim C7: NEW_STREAM allocation -/

set_option maxHeartbeats 1000000 in
/-- C7: on a cache miss whose prefetch probe also misses, with
`pref_n > 0`, a new stream is allocated in the back (LRU) buffer: the
new front buffer is valid with `head = 0` and `blocks[i] =
block_addr + 1 + i` (mod `2^32`) for every slot, the remaining buffers
shift back (the old back buffer is gone), `prefetches` grows by
`pref_m`, and if a lower level exists the trace ends with the `pref_m`
reads `(block_addr+1+i) << offset_bits` in ascending block order,
preceded only by the optional writeback and the demand read. -/
theorem C7_new_stream (c : Cache) (a : Nat) (op : Op)
    (hwf : WF c)
    (hlk : lookupWay c.assoc (c.sets.getD (indexOf c a) []) (tagOf c a) = none)
    (hpr : (probeOf c a).1 = none)
    (hpn : 0 < c.pref_n) :
    ((c.access a op).2.1).stream_buffers =
      ⟨true, 0, (List.range c.pref_m).map (fun i => (blockOf c a + 1 + i) % M32)⟩ ::
        c.stream_buffers.take (c.pref_n - 1) ∧
    ((c.access a op).2.1).prefetches = c.prefetches + c.pref_m ∧
    (c.hasLower = true →
      ∃ pre, (c.access a op).2.2 =
        pre ++ (a, Op.R) ::
          (List.range c.pref_m).map
            (fun i => ((((blockOf c a + 1 + i) % M32) <<< c.num_offset_bits) % M32,
              Op.R)) ∧
        ∀ e ∈ pre, e.2 = Op.W) := by
  have hpn2 := probeOf_none c a hpr
  have hbl := hwf.2.2.2.2.2.1
  have hlen1 : (probeOf c a).2.length - 1 + 1 = (probeOf c a).2.length := by
    rw [hpn2, hbl]; omega
  simp only [Cache.access, hlk, hpr]
  refine ⟨?_, ?_, ?_⟩
  · show (if 0 < c.pref_n then
        fillCore c.pref_m c.num_offset_bits (blockOf c a) (probeOf c a).2
          ((probeOf c a).2.length - 1) true
      else ((probeOf c a).2, 0, [])).1 = _
    rw [if_pos hpn]
    unfold fillCore
    rw [if_pos rfl]
    show (⟨true, 0, newStreamBlocks c.pref_m (blockOf c a)⟩ : StreamBuffer) ::
        ((probeOf c a).2.take ((probeOf c a).2.length - 1) ++
         (probeOf c a).2.drop ((probeOf c a).2.length - 1 + 1)) = _
    rw [hlen1, List.drop_length, List.append_nil, hpn2, hbl]
    rfl
  · show c.prefetches + (if 0 < c.pref_n then
        fillCore c.pref_m c.num_offset_bits (blockOf c a) (probeOf c a).2
          ((probeOf c a).2.length - 1) true
      else ((probeOf c a).2, 0, [])).2.1 = _
    rw [if_pos hpn]
    rfl
  · intro hl
    refine ⟨if (((c.sets.getD (indexOf c a) []).getD
        (find_victim_list c.assoc (c.sets.getD (indexOf c a) []))
        wayDefault).valid &&
       ((c.sets.getD (indexOf c a) []).getD
        (find_victim_list c.assoc (c.sets.getD (indexOf c a) []))
        wayDefault).dirty) && c.hasLower then
        [((((((c.sets.getD (indexOf c a) []).getD
            (find_victim_list c.assoc (c.sets.getD (indexOf c a) []))
            wayDefault).tag <<< (c.num_index_bits + c.num_offset_bits)) % M32) |||
           (((indexOf c a) <<< c.num_offset_bits) % M32)), Op.W)]
      else [], ?_, ?_⟩
    · rw [hl]
      show _ ++ [(a, Op.R)] ++ (if true = true then
          (if 0 < c.pref_n then
            fillCore c.pref_m c.num_offset_bits (blockOf c a) (probeOf c a).2
              ((probeOf c a).2.length - 1) true
          else ((probeOf c a).2, 0, [])).2.2
        else []) = _
      rw [if_pos rfl, if_pos hpn]
      unfold fillCore
      rw [if_pos rfl]
      show _ ++ [(a, Op.R)] ++ newStreamTrace c.pref_m (blockOf c a) c.num_offset_bits = _
      rw [List.append_assoc]
      rfl
    · intro e he
      split at he
      · rw [List.mem_singleton] at he
        rw [he]
      · simp at he

theorem C7_new_stream_witness :
    (((mkCache 16 64 1 1 4 false).access 0 Op.R).2.1).stream_buffers =
      ⟨true, 0, (List.range (mkCache 16 64 1 1 4 false).pref_m).map
          (fun i => (blockOf (mkCache 16 64 1 1 4 false) 0 + 1 + i) % M32)⟩ ::
        (mkCache 16 64 1 1 4 false).stream_buffers.take
          ((mkCache 16 64 1 1 4 false).pref_n - 1) ∧
    (((mkCache 16 64 1 1 4 false).access 0 Op.R).2.1).prefetches =
      (mkCache 16 64 1 1 4 false).prefetches + (mkCache 16 64 1 1 4 false).pref_m ∧
    ((mkCache 16 64 1 1 4 false).hasLower = true →
      ∃ pre, ((mkCache 16 64 1 1 4 false).access 0 Op.R).2.2 =
        pre ++ (0, Op.R) ::
          (List.range (mkCache 16 64 1 1 4 false).pref_m).map
            (fun i => ((((blockOf (mkCache 16 64 1 1 4 false) 0 + 1 + i) % M32) <<<
              (mkCache 16 64 1 1 4 false).num_offset_bits) % M32, Op.R)) ∧
        ∀ e ∈ pre, e.2 = Op.W) :=
  C7_new_stream (mkCache 16 64 1 1 4 false) 0 Op.R (by decide) (by decide)
    (by decide) (by decide)

/-! ### Claim C8: writeback address and ordering -/

/-- Tags of a valid victim are bounded in a well-formed cache (an
invalid default way can never be `valid`). -/
theorem dirty_victim_tag_lt (c : Cache) (a : Nat) (hwf : WF c)
    (hvalid : ((c.sets.getD (indexOf c a) []).getD
      (find_victim_list c.assoc (c.sets.getD (indexOf c a) []))
      wayDefault).valid = true) :
    ((c.sets.getD (indexOf c a) []).getD
      (find_victim_list c.assoc (c.sets.getD (indexOf c a) []))
      wayDefault).tag < 2 ^ c.num_tag_bits := by
  obtain ⟨h32, htb, hns, hsl, hsets, _, _⟩ := hwf
  by_cases h1 : indexOf c a < c.sets.length
  · by_cases h2 : find_victim_list c.assoc (c.sets.getD (indexOf c a) []) <
        (c.sets.getD (indexOf c a) []).length
    · rw [List.getD_eq_getElem _ _ h2]
      have hmem : c.sets.getD (indexOf c a) [] ∈ c.sets := by
        rw [List.getD_eq_getElem _ _ h1]
        exact List.getElem_mem h1
      exact (hsets _ hmem).2.2 _ (List.getElem_mem h2)
    · rw [List.getD_eq_default _ _ (by omega)] at hvalid
      simp [wayDefault] at hvalid
  · rw [List.getD_eq_default c.sets _ (by omega)] at hvalid
    simp [wayDefault] at hvalid

set_option maxHeartbeats 1000000 in
/-- C8: when a miss evicts a valid dirty victim and a lower level
exists, the first call issued to the lower level in this access is a
WRITE of `(tag << (offset_bits+index_bits)) | (index << offset_bits)`
(offset bits zero, no wraparound), before any demand read or prefetch
reads, and a WRITE access increments any cache's `writes` counter by
one. -/
theorem C8_writeback (c : Cache) (a : Nat) (op : Op)
    (hwf : WF c)
    (hlk : lookupWay c.assoc (c.sets.getD (indexOf c a) []) (tagOf c a) = none)
    (hdirty : (((c.sets.getD (indexOf c a) []).getD
        (find_victim_list c.assoc (c.sets.getD (indexOf c a) []))
        wayDefault).valid &&
       ((c.sets.getD (indexOf c a) []).getD
        (find_victim_list c.assoc (c.sets.getD (indexOf c a) []))
        wayDefault).dirty) = true)
    (hl : c.hasLower = true) :
    ∃ rest, (c.access a op).2.2 =
      ((((c.sets.getD (indexOf c a) []).getD
          (find_victim_list c.assoc (c.sets.getD (indexOf c a) []))
          wayDefault).tag <<< (c.num_index_bits + c.num_offset_bits)) |||
        ((indexOf c a) <<< c.num_offset_bits), Op.W) :: rest ∧
      ∀ L : Cache,
        ((L.access ((((c.sets.getD (indexOf c a) []).getD
            (find_victim_list c.assoc (c.sets.getD (indexOf c a) []))
            wayDefault).tag <<< (c.num_index_bits + c.num_offset_bits)) |||
          ((indexOf c a) <<< c.num_offset_bits)) Op.W).2.1).writes = L.writes + 1 := by
  have hvalid : ((c.sets.getD (indexOf c a) []).getD
      (find_victim_list c.assoc (c.sets.getD (indexOf c a) []))
      wayDefault).valid = true := by
    rw [Bool.and_eq_true] at hdirty
    exact hdirty.1
  have htag := dirty_victim_tag_lt c a hwf hvalid
  obtain ⟨h32, htb, _, _, _, _, _⟩ := hwf
  -- neither shift wraps: the tag has num_tag_bits = 32 - (ib+ob) bits
  have hm1 : (((c.sets.getD (indexOf c a) []).getD
      (find_victim_list c.assoc (c.sets.getD (indexOf c a) []))
      wayDefault).tag <<< (c.num_index_bits + c.num_offset_bits)) % M32 =
      ((c.sets.getD (indexOf c a) []).getD
      (find_victim_list c.assoc (c.sets.getD (indexOf c a) []))
      wayDefault).tag <<< (c.num_index_bits + c.num_offset_bits) := by
    apply Nat.mod_eq_of_lt
    rw [Nat.shiftLeft_eq]
    have hlt : ((c.sets.getD (indexOf c a) []).getD
        (find_victim_list c.assoc (c.sets.getD (indexOf c a) []))
        wayDefault).tag * 2 ^ (c.num_index_bits + c.num_offset_bits) <
        2 ^ c.num_tag_bits * 2 ^ (c.num_index_bits + c.num_offset_bits) :=
      (Nat.mul_lt_mul_right (Nat.pos_pow_of_pos _ (by omega))).mpr htag
    calc ((c.sets.getD (indexOf c a) []).getD
          (find_victim_list c.assoc (c.sets.getD (indexOf c a) []))
          wayDefault).tag * 2 ^ (c.num_index_bits + c.num_offset_bits)
        < 2 ^ c.num_tag_bits * 2 ^ (c.num_index_bits + c.num_offset_bits) := hlt
      _ ≤ 2 ^ (32 : Nat) := by
          rw [← pow_add]
          apply Nat.pow_le_pow_right (by omega)
          omega
      _ = M32 := by norm_num [M32]
  have hm2 : ((indexOf c a) <<< c.num_offset_bits) % M32 =
      (indexOf c a) <<< c.num_offset_bits := by
    apply Nat.mod_eq_of_lt
    rw [Nat.shiftLeft_eq]
    have hi : indexOf c a < 2 ^ c.num_index_bits :=
      Nat.mod_lt _ (Nat.pos_pow_of_pos _ (by omega))
    have hlt : (indexOf c a) * 2 ^ c.num_offset_bits <
        2 ^ c.num_index_bits * 2 ^ c.num_offset_bits :=
      (Nat.mul_lt_mul_right (Nat.pos_pow_of_pos _ (by omega))).mpr hi
    calc (indexOf c a) * 2 ^ c.num_offset_bits
        < 2 ^ c.num_index_bits * 2 ^ c.num_offset_bits := hlt
      _ ≤ 2 ^ (32 : Nat) := by
          rw [← pow_add]
          apply Nat.pow_le_pow_right (by omega)
          omega
      _ = M32 := by norm_num [M32]
  rcases hpr : (probeOf c a).1 with _ | pi <;>
    simp only [Cache.access, hlk, hpr] <;>
    rw [show ((((c.sets.getD (indexOf c a) []).getD
        (find_victim_list c.assoc (c.sets.getD (indexOf c a) []))
        wayDefault).valid &&
       ((c.sets.getD (indexOf c a) []).getD
        (find_victim_list c.assoc (c.sets.getD (indexOf c a) []))
        wayDefault).dirty) && c.hasLower) = true by rw [hdirty, hl]; rfl] <;>
    rw [if_pos rfl, hm1, hm2] <;>
    exact ⟨_, rfl, fun L => access_W_writes L _⟩

def c8c : Cache := runTrace (mkCache 16 64 1 0 0 true) [(0, Op.W)]

/-- C8 witness: from a fresh 4-set direct-mapped cache with a lower
level, `w 0x0` leaves a valid dirty line in set 0; the access `r 0x100`
maps to the same set, evicts it, and the first lower-level call is the
WRITE of the reconstructed victim address. -/
theorem C8_writeback_witness :
    ∃ rest, (c8c.access 256 Op.R).2.2 =
      ((((c8c.sets.getD (indexOf c8c 256) []).getD
          (find_victim_list c8c.assoc (c8c.sets.getD (indexOf c8c 256) []))
          wayDefault).tag <<< (c8c.num_index_bits + c8c.num_offset_bits)) |||
        ((indexOf c8c 256) <<< c8c.num_offset_bits), Op.W) :: rest ∧
      ∀ L : Cache,
        ((L.access ((((c8c.sets.getD (indexOf c8c 256) []).getD
            (find_victim_list c8c.assoc (c8c.sets.getD (indexOf c8c 256) []))
            wayDefault).tag <<< (c8c.num_index_bits + c8c.num_offset_bits)) |||
          ((indexOf c8c 256) <<< c8c.num_offset_bits)) Op.W).2.1).writes =
          L.writes + 1 :=
  C8_writeback c8c 256 Op.R (by decide) (by decide) (by decide) (by decide)

/-! ### Claim C1: miss + prefetch hit scenario -/

/-- Installing a way and promoting it leaves it at the victim slot with
its LRU counter reset to 0. -/
theorem install_way (assoc : Nat) (l : List Way) (w : Way) (victim : Nat)
    (hv : victim < assoc) (hvl : victim < l.length) :
    (update_lru_list assoc (l.set victim w) victim).getD victim wayDefault =
      { w with lru_counter := 0 } := by
  rw [update_lru_getD _ _ _ _ hv, if_pos rfl, getD_set_self_of_lt _ _ _ _ hvl]

set_option maxHeartbeats 1000000 in
/-- C1: an access that misses the cache but hits the prefetch probe
counts as a read or write but not as a miss, leaves `nextLevelDemands`
unchanged (no demand read), writes a dirty victim back (one writeback,
issued as the only non-prefetch lower-level call), installs the line at
the victim way with `valid`, `dirty = (op == WRITE)`, the access tag
and LRU rank 0 (MRU), and refills the hit buffer in CONTINUE mode
(`fillCore ... false`). -/
theorem C1_miss_prefetch_hit (c : Cache) (a : Nat) (op : Op) (pi : Nat)
    (hwf : WF c) (hassoc : 0 < c.assoc)
    (hidx : indexOf c a < c.sets.length)
    (hlk : lookupWay c.assoc (c.sets.getD (indexOf c a) []) (tagOf c a) = none)
    (hpr : (probeOf c a).1 = some pi) :
    (c.access a op).1 = false ∧
    ((c.access a op).2.1).reads = c.reads + (if op = Op.R then 1 else 0) ∧
    ((c.access a op).2.1).writes = c.writes + (if op = Op.W then 1 else 0) ∧
    ((c.access a op).2.1).read_misses = c.read_misses ∧
    ((c.access a op).2.1).write_misses = c.write_misses ∧
    ((c.access a op).2.1).nextLevelDemands = c.nextLevelDemands ∧
    ((c.access a op).2.1).write_backs = c.write_backs +
      (if ((c.sets.getD (indexOf c a) []).getD
            (find_victim_list c.assoc (c.sets.getD (indexOf c a) []))
            wayDefault).valid &&
          ((c.sets.getD (indexOf c a) []).getD
            (find_victim_list c.assoc (c.sets.getD (indexOf c a) []))
            wayDefault).dirty
       then 1 else 0) ∧
    wayAt ((c.access a op).2.1) (indexOf c a)
      (find_victim_list c.assoc (c.sets.getD (indexOf c a) [])) =
      ⟨true, op == Op.W, tagOf c a, 0⟩ ∧
    ((c.access a op).2.1).stream_buffers =
      (fillCore c.pref_m c.num_offset_bits (blockOf c a)
        (probeOf c a).2 pi false).1 ∧
    ((c.access a op).2.1).prefetches = c.prefetches +
      (fillCore c.pref_m c.num_offset_bits (blockOf c a)
        (probeOf c a).2 pi false).2.1 ∧
    (c.access a op).2.2 =
      (if (((c.sets.getD (indexOf c a) []).getD
            (find_victim_list c.assoc (c.sets.getD (indexOf c a) []))
            wayDefault).valid &&
           ((c.sets.getD (indexOf c a) []).getD
            (find_victim_list c.assoc (c.sets.getD (indexOf c a) []))
            wayDefault).dirty) && c.hasLower
       then [(((((c.sets.getD (indexOf c a) []).getD
              (find_victim_list c.assoc (c.sets.getD (indexOf c a) []))
              wayDefault).tag <<< (c.num_index_bits + c.num_offset_bits)) % M32) |||
             (((indexOf c a) <<< c.num_offset_bits) % M32), Op.W)]
       else []) ++
      (if c.hasLower then
        (fillCore c.pref_m c.num_offset_bits (blockOf c a)
          (probeOf c a).2 pi false).2.2
       else []) := by
  have hsetwf : SetWF c.assoc c.num_tag_bits (c.sets.getD (indexOf c a) []) := by
    obtain ⟨_, _, _, _, hsets, _, _⟩ := hwf
    have hmem : c.sets.getD (indexOf c a) [] ∈ c.sets := by
      rw [List.getD_eq_getElem _ _ hidx]
      exact List.getElem_mem hidx
    exact hsets _ hmem
  have hlen : (c.sets.getD (indexOf c a) []).length = c.assoc := hsetwf.1
  have hvlt := find_victim_lt c.assoc (c.sets.getD (indexOf c a) []) hassoc
  refine ⟨?_, ?_, ?_, ?_, ?_, ?_, ?_, ?_, ?_, ?_, ?_⟩
  · simp only [Cache.access, hlk, hpr]
  · simp only [Cache.access, hlk, hpr]
  · simp only [Cache.access, hlk, hpr]
  · simp only [Cache.access, hlk, hpr]
  · simp only [Cache.access, hlk, hpr]
  · simp only [Cache.access, hlk, hpr]
  · simp only [Cache.access, hlk, hpr]
  · simp only [Cache.access, hlk, hpr, wayAt]
    rw [getD_set_self_of_lt _ _ _ _ hidx,
      install_way _ _ _ _ hvlt (by split <;> simp only [List.length_set, hlen] <;> omega)]
  · simp only [Cache.access, hlk, hpr]
  · simp only [Cache.access, hlk, hpr]
  · simp only [Cache.access, hlk, hpr]

def c1c : Cache := runTrace (mkCache 16 64 1 1 4 false) [(0, Op.R)]

/-- C1 witness: after `r 0x0` on a fresh direct-mapped cache with one
4-slot stream buffer, the buffer holds blocks 1-4; the access `r 0x10`
(block 1) misses the cache, hits the probe in buffer 0, and takes the
miss + prefetch-hit path. -/
theorem C1_miss_prefetch_hit_witness :
    (c1c.access 16 Op.R).1 = false ∧
    ((c1c.access 16 Op.R).2.1).reads = c1c.reads + (if Op.R = Op.R then 1 else 0) ∧
    ((c1c.access 16 Op.R).2.1).writes = c1c.writes + (if Op.R = Op.W then 1 else 0) ∧
    ((c1c.access 16 Op.R).2.1).read_misses = c1c.read_misses ∧
    ((c1c.access 16 Op.R).2.1).write_misses = c1c.write_misses ∧
    ((c1c.access 16 Op.R).2.1).nextLevelDemands = c1c.nextLevelDemands ∧
    ((c1c.access 16 Op.R).2.1).write_backs = c1c.write_backs +
      (if ((c1c.sets.getD (indexOf c1c 16) []).getD
            (find_victim_list c1c.assoc (c1c.sets.getD (indexOf c1c 16) []))
            wayDefault).valid &&
          ((c1c.sets.getD (indexOf c1c 16) []).getD
            (find_victim_list c1c.assoc (c1c.sets.getD (indexOf c1c 16) []))
            wayDefault).dirty
       then 1 else 0) ∧
    wayAt ((c1c.access 16 Op.R).2.1) (indexOf c1c 16)
      (find_victim_list c1c.assoc (c1c.sets.getD (indexOf c1c 16) [])) =
      ⟨true, Op.R == Op.W, tagOf c1c 16, 0⟩ ∧
    ((c1c.access 16 Op.R).2.1).stream_buffers =
      (fillCore c1c.pref_m c1c.num_offset_bits (blockOf c1c 16)
        (probeOf c1c 16).2 0 false).1 ∧
    ((c1c.access 16 Op.R).2.1).prefetches = c1c.prefetches +
      (fillCore c1c.pref_m c1c.num_offset_bits (blockOf c1c 16)
        (probeOf c1c 16).2 0 false).2.1 ∧
    (c1c.access 16 Op.R).2.2 =
      (if (((c1c.sets.getD (indexOf c1c 16) []).getD
            (find_victim_list c1c.assoc (c1c.sets.getD (indexOf c1c 16) []))
            wayDefault).valid &&
           ((c1c.sets.getD (indexOf c1c 16) []).getD
            (find_victim_list c1c.assoc (c1c.sets.getD (indexOf c1c 16) []))
            wayDefault).dirty) && c1c.hasLower
       then [(((((c1c.sets.getD (indexOf c1c 16) []).getD
              (find_victim_list c1c.assoc (c1c.sets.getD (indexOf c1c 16) []))
              wayDefault).tag <<< (c1c.num_index_bits + c1c.num_offset_bits)) % M32) |||
             (((indexOf c1c 16) <<< c1c.num_offset_bits) % M32), Op.W)]
       else []) ++
      (if c1c.hasLower then
        (fillCore c1c.pref_m c1c.num_offset_bits (blockOf c1c 16)
          (probeOf c1c 16).2 0 false).2.2
       else []) :=
  C1_miss_prefetch_hit c1c 16 Op.R 0 (by decide) (by decide) (by decide)
    (by decide) (by decide)

/-! ### Claim C10: frame conditions of a cache hit -/

/-- Field-level frame of the indexed set on a hit: promoting the hit
way changes only LRU counters; the optional dirty-marking touches only
the hit way, and only on a WRITE. -/
theorem hit_ways_fields (assoc : Nat) (ways : List Way) (i j : Nat) (op : Op)
    (hj : j < assoc) :
    (((update_lru_list assoc
        (if op = Op.W then ways.set i { ways.getD i wayDefault with dirty := true }
         else ways) i).getD j wayDefault).valid = (ways.getD j wayDefault).valid) ∧
    (((update_lru_list assoc
        (if op = Op.W then ways.set i { ways.getD i wayDefault with dirty := true }
         else ways) i).getD j wayDefault).tag = (ways.getD j wayDefault).tag) ∧
    (j ≠ i →
      ((update_lru_list assoc
        (if op = Op.W then ways.set i { ways.getD i wayDefault with dirty := true }
         else ways) i).getD j wayDefault).dirty = (ways.getD j wayDefault).dirty) ∧
    (op = Op.R →
      ((update_lru_list assoc
        (if op = Op.W then ways.set i { ways.getD i wayDefault with dirty := true }
         else ways) i).getD j wayDefault).dirty = (ways.getD j wayDefault).dirty) := by
  obtain ⟨hv, hd, ht⟩ := update_lru_fields assoc
    (if op = Op.W then ways.set i { ways.getD i wayDefault with dirty := true }
     else ways) i j hj
  rw [hv, hd, ht]
  by_cases hop : op = Op.W
  · rw [if_pos hop]
    by_cases hij : j = i
    · subst hij
      by_cases hl : j < ways.length
      · rw [getD_set_self_of_lt _ _ _ _ hl]
        exact ⟨rfl, rfl, fun h => absurd rfl h,
          fun h => by rw [h] at hop; exact Op.noConfusion hop⟩
      · rw [List.getD_eq_default _ _ (by rw [List.length_set]; omega),
          List.getD_eq_default _ _ (by omega)]
        exact ⟨rfl, rfl, fun h => absurd rfl h, fun _ => rfl⟩
    · rw [getD_set_ne _ _ _ _ _ (Ne.symm hij)]
      exact ⟨rfl, rfl, fun _ => rfl, fun _ => rfl⟩
  · rw [if_neg hop]
    exact ⟨rfl, rfl, fun _ => rfl, fun _ => rfl⟩

set_option maxHeartbeats 1000000 in
/-- C10: an access that returns HIT leaves read_misses, write_misses,
write_backs and nextLevelDemands unchanged, leaves every other set
untouched, and in the indexed set preserves every way valid bit and
tag; the dirty bit changes at most on the hit way, and not at all on a
READ. -/
theorem C10_hit_frame (c : Cache) (a : Nat) (op : Op) (i : Nat)
    (hidx : indexOf c a < c.sets.length)
    (hlk : lookupWay c.assoc (c.sets.getD (indexOf c a) []) (tagOf c a) = some i) :
    (c.access a op).1 = true ∧
    ((c.access a op).2.1).read_misses = c.read_misses ∧
    ((c.access a op).2.1).write_misses = c.write_misses ∧
    ((c.access a op).2.1).write_backs = c.write_backs ∧
    ((c.access a op).2.1).nextLevelDemands = c.nextLevelDemands ∧
    (∀ s, s ≠ indexOf c a →
      ((c.access a op).2.1).sets.getD s [] = c.sets.getD s []) ∧
    ∀ j, j < c.assoc →
      (wayAt ((c.access a op).2.1) (indexOf c a) j).valid =
        (wayAt c (indexOf c a) j).valid ∧
      (wayAt ((c.access a op).2.1) (indexOf c a) j).tag =
        (wayAt c (indexOf c a) j).tag ∧
      (j ≠ i →
        (wayAt ((c.access a op).2.1) (indexOf c a) j).dirty =
          (wayAt c (indexOf c a) j).dirty) ∧
      (op = Op.R →
        (wayAt ((c.access a op).2.1) (indexOf c a) j).dirty =
          (wayAt c (indexOf c a) j).dirty) := by
  refine ⟨?_, ?_, ?_, ?_, ?_, ?_, ?_⟩
  · rcases hpr : (probeOf c a).1 with _ | pi <;>
      simp only [Cache.access, hlk, hpr]
  · rcases hpr : (probeOf c a).1 with _ | pi <;>
      simp only [Cache.access, hlk, hpr]
  · rcases hpr : (probeOf c a).1 with _ | pi <;>
      simp only [Cache.access, hlk, hpr]
  · rcases hpr : (probeOf c a).1 with _ | pi <;>
      simp only [Cache.access, hlk, hpr]
  · rcases hpr : (probeOf c a).1 with _ | pi <;>
      simp only [Cache.access, hlk, hpr]
  · intro s hs
    rcases hpr : (probeOf c a).1 with _ | pi <;>
      simp only [Cache.access, hlk, hpr] <;>
      exact getD_set_ne _ _ _ _ _ (Ne.symm hs)
  · intro j hj
    have key := hit_ways_fields c.assoc (c.sets.getD (indexOf c a) []) i j op hj
    rcases hpr : (probeOf c a).1 with _ | pi <;>
      simp only [Cache.access, hlk, hpr, wayAt] <;>
      rw [getD_set_self_of_lt _ _ _ _ hidx] <;>
      exact key

def c10c : Cache := runTrace (mkCache 16 64 1 0 0 false) [(0, Op.R)]

/-- C10 witness: after `r 0x0` on a fresh cache, a second `r 0x0` hits
way 0 of set 0 and only promotes it. -/
theorem C10_hit_frame_witness :
    (c10c.access 0 Op.R).1 = true ∧
    ((c10c.access 0 Op.R).2.1).read_misses = c10c.read_misses ∧
    ((c10c.access 0 Op.R).2.1).write_misses = c10c.write_misses ∧
    ((c10c.access 0 Op.R).2.1).write_backs = c10c.write_backs ∧
    ((c10c.access 0 Op.R).2.1).nextLevelDemands = c10c.nextLevelDemands ∧
    (∀ s, s ≠ indexOf c10c 0 →
      ((c10c.access 0 Op.R).2.1).sets.getD s [] = c10c.sets.getD s []) ∧
    ∀ j, j < c10c.assoc →
      (wayAt ((c10c.access 0 Op.R).2.1) (indexOf c10c 0) j).valid =
        (wayAt c10c (indexOf c10c 0) j).valid ∧
      (wayAt ((c10c.access 0 Op.R).2.1) (indexOf c10c 0) j).tag =
        (wayAt c10c (indexOf c10c 0) j).tag ∧
      (j ≠ 0 →
        (wayAt ((c10c.access 0 Op.R).2.1) (indexOf c10c 0) j).dirty =
          (wayAt c10c (indexOf c10c 0) j).dirty) ∧
      (Op.R = Op.R →
        (wayAt ((c10c.access 0 Op.R).2.1) (indexOf c10c 0) j).dirty =
          (wayAt c10c (indexOf c10c 0) j).dirty) :=
  C10_hit_frame c10c 0 Op.R 0 (by decide) (by decide)
